import Mathlib

/-!
# Out-of-core memory manager (`tpiemm::MemoryManager`) — verification development

Shallow embedding of `fastlib/u/nvasil/mmanager_with_tpie/memory_manager.h`, followed by
the parts of `series_expansion.cc` and `lars.h` that the later sections are about.  All
definitions come first, the theorems after them.

Conventions of the embedding

* `index_t`, `int32`, `long` and `ptrdiff_t` values are `Int`; raw pointers (`char *`,
  `void *`, `T *`) are the integer value of the address, `NULL` being `0`.
* C++ `/` on signed integers truncates toward zero: it is `Int.tdiv`.
* `FATAL(...)` prints a diagnostic and aborts the process.  A call therefore ends either
  normally, with a return value and the manager state it leaves behind, or in `fatal`,
  carrying the diagnostic and the manager state at the moment of the abort.
* The member functions of `MemoryManager` are only declared in `memory_manager.h`; their
  bodies live in `memory_manager_impl.h`, which is not among the sources.  Code that calls
  such a member takes it as a parameter, or uses a definition modelled from the design
  document and marked as such.
-/

namespace tpiemm

/-- Outcome of a call: normal return with the state left behind, or `FATAL` abort. -/
inductive Result (σ α : Type) where
  | ok (value : α) (state : σ)
  | fatal (msg : String) (state : σ)
  deriving Repr, DecidableEq

namespace Result

/-- Sequencing: an abort stops the computation. -/
def bind {σ α β : Type} (r : Result σ α) (f : α → σ → Result σ β) : Result σ β :=
  match r with
  | ok v s => f v s
  | fatal msg s => fatal msg s

/-- True when the call ended in `FATAL`. -/
def isFatal {σ α : Type} : Result σ α → Bool
  | ok _ _ => false
  | fatal _ _ => true

/-- State at the end of the call (at the abort, for a fatal one). -/
def finalState {σ α : Type} : Result σ α → σ
  | ok _ s => s
  | fatal _ s => s

/-- Returned value of a call that ended normally. -/
def value? {σ α : Type} : Result σ α → Option α
  | ok v _ => some v
  | fatal _ _ => none

end Result

/-- Data members of `MemoryManager` (lines 306-352 of `memory_manager.h`) that the
embedded functions read or write.  Arrays are lists indexed from `0`. -/
structure MemoryManager where
  /-- Member `char *cache_`: cache buffer. -/
  cache_ : Int
  /-- Member `index_t cache_size_`: capacity of the cache. -/
  cache_size_ : Int
  /-- Member `long system_page_size_`. -/
  system_page_size_ : Int
  /-- Member `index_t num_of_pages_`: total number of pages the cache has. -/
  num_of_pages_ : Int
  /-- Member `index_t page_size_`. -/
  page_size_ : Int
  /-- Member `string header_file_`. -/
  header_file_ : String
  /-- Member `string cache_file_`. -/
  cache_file_ : String
  /-- Member `index_t current_offset_`: the current offset on the page. -/
  current_offset_ : Int
  /-- Member `index_t current_page_`: the current page, possibly for the next object. -/
  current_page_ : Int
  /-- Member `bool *page_modified_`. -/
  page_modified_ : List Bool
  /-- Member `char **page_address_`: pointer into the cache, `NULL` (`0`) when not in memory. -/
  page_address_ : List Int
  /-- Member `index_t *page_timestamp_`: age of the pages. -/
  page_timestamp_ : List Int
  /-- Member `index_t page_timer_`: the timer that increases after every access. -/
  page_timer_ : Int
  /-- Member `index_t *page_locks_`: the page locks. -/
  page_locks_ : List Int
  deriving Repr, DecidableEq

/-- The state the constructor `MemoryManager()` sets up (lines 193-200), with the cache
buffer placed at `cache` and `sysconf(_SC_PAGESIZE)` answering `sysPage`; members the
constructor leaves alone are zero/empty. -/
def MemoryManager.mk0 (cache sysPage : Int) : MemoryManager :=
  { cache_ := cache
    cache_size_ := 256 * 1024
    system_page_size_ := sysPage
    num_of_pages_ := 0
    page_size_ := 4096
    header_file_ := "temp_mem" ++ ".header"
    cache_file_ := "temp_mem"
    current_offset_ := 0
    current_page_ := 0
    page_modified_ := []
    page_address_ := []
    page_timestamp_ := []
    page_timer_ := 0
    page_locks_ := [] }

/-- Modelled from the spec: `mark_dirty(page)` of the page directory, the body of
`void SetPageModified(index_t page)` being absent from the sources.  It raises the dirty
flag of the given entry and touches nothing else. -/
def MemoryManager.SetPageModified (m : MemoryManager) (page : Int) : MemoryManager :=
  if 0 ≤ page then { m with page_modified_ := m.page_modified_.set page.toNat true } else m

/-- Function `FaultHandler(void *fault_address, int serious)`, lines 403-427.  The member
`SetPageModified` it calls is a parameter. -/
def FaultHandler (SetPageModified : MemoryManager → Int → MemoryManager)
    (allocator : MemoryManager) (fault_address : Int) (_serious : Int) :
    Result MemoryManager Int :=
  if fault_address ≥ allocator.cache_ ∧
      fault_address < allocator.cache_ + allocator.cache_size_ then
    let cache_page := Int.tdiv (fault_address - allocator.cache_) allocator.page_size_
    Result.ok 1 (SetPageModified allocator cache_page)
  else
    Result.fatal "Segmentation violation, There is a bug somewhere" allocator

/-! ### Stride of a type -/

/-- Function `StrideOf<T>()`, lines 58-62, as a function of the two compile-time constants
it reads: `sizeof(Tchar<T>)` and `sizeof(T)` (both `size_t`, hence natural numbers). -/
def StrideOf (sizeof_Tchar sizeof_T : Nat) : Nat :=
  if sizeof_Tchar > sizeof_T then sizeof_Tchar - sizeof_T else sizeof_T

/-- The design document's wording of the stride: `v` is the smallest multiple of the
alignment `a` that is greater than or equal to the size `s`. -/
def IsSmallestMultipleGE (a s v : Nat) : Prop :=
  a ∣ v ∧ s ≤ v ∧ ∀ m : Nat, a ∣ m → s ≤ m → v ≤ m

/-! ### Configuration -/

/-- Function `set_page_size(int32 page_size)`, lines 290-296.  C++ `%` is the truncating
remainder `Int.tmod`. -/
def MemoryManager.set_page_size (m : MemoryManager) (page_size : Int) :
    Result MemoryManager Unit :=
  if Int.tmod m.page_size_ m.system_page_size_ ≠ 0 then
    Result.fatal "Page size must be a multiple of the system page size" m
  else
    Result.ok () { m with page_size_ := page_size }

/-! ### Page timers -/

/-- Function `ResetPageTimers()`, lines 220-225: the timer is zeroed, then the loop
`for (i = 0; i < num_of_pages_; i++) page_timestamp_[i] = 0` runs. -/
def MemoryManager.ResetPageTimers (m : MemoryManager) : MemoryManager :=
  (List.range m.num_of_pages_.toNat).foldl
    (fun acc i => { acc with page_timestamp_ := acc.page_timestamp_.set i 0 })
    { m with page_timer_ := 0 }

/-! ### Address allocator (bodies absent from the sources) -/

/-- Modelled from the spec: the padded size of an allocation, "so the object's true size
and its alignment stride agree": the smallest multiple of the stride that is at least the
size.  (`Alloc`, `AlignedAlloc` and `Align` are only declared in the header.) -/
def PaddedSize (size stride : Int) : Int :=
  ((size + stride - 1) / stride) * stride

/-- Modelled from the spec: `FitsInPage(size, stride)`, declared on line 367 without a
body.  The object does not fit when "the remaining space in the current page
(`page_size − current_offset`) is smaller than the padded size". -/
def MemoryManager.FitsInPage (m : MemoryManager) (size stride : Int) : Bool :=
  !decide (m.page_size_ - m.current_offset_ < PaddedSize size stride)

/-- Modelled from the spec: `NextPage()`, declared on line 368 without a body: "advance
to a new page and reset the offset to zero". -/
def MemoryManager.NextPage (m : MemoryManager) : MemoryManager :=
  { m with current_page_ := m.current_page_ + 1, current_offset_ := 0 }

/-- Modelled from the spec: `allocate(size, alignment)` of the address allocator, standing
for `Alloc<T>(size)` / `AlignedAlloc(size)` whose bodies are absent.  An object larger
than a page is fatal; if the object does not fit the allocator advances to a new page;
then it bumps `current_offset_` by the padded size and returns the address at the prior
offset, `current_page_ * page_size_ + current_offset_`. -/
def MemoryManager.Alloc (m : MemoryManager) (size stride : Int) : Result MemoryManager Int :=
  if size > m.page_size_ then
    Result.fatal "Requested an object larger than a page" m
  else
    let m1 := if m.FitsInPage size stride then m else m.NextPage
    Result.ok (m1.current_page_ * m1.page_size_ + m1.current_offset_)
      { m1 with current_offset_ := m1.current_offset_ + PaddedSize size stride }

/-- Function `malloc<T>(size)`, lines 237-240: `return allocator_->Alloc<T>(size)`, the
stride of `T` being passed along explicitly. -/
def malloc (allocator_ : MemoryManager) (size stride : Int) : Result MemoryManager Int :=
  allocator_.Alloc size stride

/-- A sequence of `malloc` calls, each request being `(size, stride)`; the addresses are
collected in call order. -/
def mallocSeq (allocator_ : MemoryManager) :
    List (Int × Int) → Result MemoryManager (List Int)
  | [] => Result.ok [] allocator_
  | r :: rest =>
    (malloc allocator_ r.1 r.2).bind fun a m1 =>
      (mallocSeq m1 rest).bind fun as m2 => Result.ok (a :: as) m2

/-- Frontier of the allocator: the logical address at which the next object would start
if it fits the current page. -/
def MemoryManager.frontier (m : MemoryManager) : Int :=
  m.current_page_ * m.page_size_ + m.current_offset_

/-! ### Page directory (bodies absent from the sources) -/

/-- Entry `arr[i]` of an `index_t` array, `0` outside the stored part. -/
def entry (arr : List Int) (i : Nat) : Int := arr.getD i 0

/-- Modelled from the spec: one step of the `select_victim()` scan (the body of
`LeastNeededPage()` being absent): page `i` replaces the current candidate when it is
resident, unlocked, and strictly older than the candidate. -/
def victimStep (m : MemoryManager) (best : Option Nat) (i : Nat) : Option Nat :=
  if entry m.page_address_ i ≠ 0 ∧ entry m.page_locks_ i = 0 then
    match best with
    | none => some i
    | some b => if entry m.page_timestamp_ i < entry m.page_timestamp_ b then some i else some b
  else best

/-- Modelled from the spec: `select_victim()`, the body of `LeastNeededPage()` (declared on
line 371) being absent: "among resident pages with `lock_count == 0`, return the one with
the smallest `last_touch`; if none exist, this is a fatal resource-exhaustion condition";
"recency ties are broken by lowest page index".  A page is resident when its
`page_address_` entry is not `NULL`. -/
def MemoryManager.LeastNeededPage (m : MemoryManager) : Result MemoryManager Int :=
  match (List.range m.num_of_pages_.toNat).foldl (victimStep m) none with
  | some v => Result.ok (v : Int) m
  | none => Result.fatal "All pages in the cache are locked" m

/-- Modelled from the spec: `pin(page)`, the body of `Lock(index_t address)` (declared on
line 266) being absent: the lock count of the page `address / page_size_` goes up by one. -/
def MemoryManager.Lock (m : MemoryManager) (address : Int) : Result MemoryManager Unit :=
  let page := (Int.tdiv address m.page_size_).toNat
  Result.ok () { m with page_locks_ := m.page_locks_.set page (entry m.page_locks_ page + 1) }

/-- Modelled from the spec: `unpin(page)`, the body of `Unlock(index_t address)` (declared
on line 267) being absent: the lock count of the page `address / page_size_` goes down by
one; "unpinning below zero is a programming-error fault". -/
def MemoryManager.Unlock (m : MemoryManager) (address : Int) : Result MemoryManager Unit :=
  let page := (Int.tdiv address m.page_size_).toNat
  if entry m.page_locks_ page - 1 < 0 then
    Result.fatal "Unlock of a page that is not locked" m
  else
    Result.ok () { m with page_locks_ := m.page_locks_.set page (entry m.page_locks_ page - 1) }

/-! ### Handles -/

/-- Class `Ptr<T>`, lines 159-164: the address, the cached raw pointer (`NULL` is `0`) and
the owner flag of the `DEBUG` build. -/
structure Ptr where
  /-- Member `index_t address_`. -/
  address_ : Int
  /-- Member `T *p_`. -/
  p_ : Int
  /-- Member `bool is_owner_`. -/
  is_owner_ : Bool
  deriving Repr, DecidableEq

namespace Ptr

/-- Constructor `Ptr()`, lines 66-72. -/
def new : Ptr := { address_ := -1, p_ := 0, is_owner_ := false }

/-- Function `Reset(index_t address)`, lines 98-103. -/
def Reset (this : Ptr) (address : Int) : Ptr :=
  { this with is_owner_ := true, address_ := address }

/-- Function `Lock()`, lines 150-152: `p_ = allocator_->LockAndAccess(address_)`.  The
allocator member, declared on line 268 without a body, is a parameter. -/
def Lock {σ : Type} (LockAndAccess : σ → Int → Result σ Int) (this : Ptr) (allocator_ : σ) :
    Result σ Ptr :=
  (LockAndAccess allocator_ this.address_).bind fun p m => Result.ok { this with p_ := p } m

/-- Function `Unlock()`, lines 154-157: `p_ = NULL; allocator_->Unlock(address_)`.  The
allocator member is a parameter. -/
def Unlock {σ : Type} (allocUnlock : σ → Int → Result σ Unit) (this : Ptr) (allocator_ : σ) :
    Result σ Ptr :=
  let this1 : Ptr := { this with p_ := 0 }
  (allocUnlock allocator_ this1.address_).bind fun _ m => Result.ok this1 m

end Ptr

/-- Calls received by an allocator that only records them. -/
inductive AllocatorCall where
  | LockAndAccess (address : Int)
  | Unlock (address : Int)
  deriving Repr, DecidableEq

/-- Recording allocator: `LockAndAccess(address)` is appended to the log and answers the
pointer `base + address`. -/
def recordLockAndAccess (base : Int) (log : List AllocatorCall) (address : Int) :
    Result (List AllocatorCall) Int :=
  Result.ok (base + address) (log ++ [AllocatorCall.LockAndAccess address])

/-- Recording allocator: `Unlock(address)` is appended to the log. -/
def recordUnlock (log : List AllocatorCall) (address : Int) :
    Result (List AllocatorCall) Unit :=
  Result.ok () (log ++ [AllocatorCall.Unlock address])

/-! ### Handles: null address -/

/-- Function `SetNULL()`, lines 104-106. -/
def Ptr.SetNULL (this : Ptr) : Ptr :=
  { this with address_ := -1 }

/-- Function `IsNULL()`, lines 107-109. -/
def Ptr.IsNULL (this : Ptr) : Bool :=
  decide (this.address_ = -1)

/-- Function `get_address()`, lines 146-148. -/
def Ptr.get_address (this : Ptr) : Int :=
  this.address_

/-- Function `get_p()`, lines 142-144. -/
def Ptr.get_p (this : Ptr) : Int :=
  this.p_

/-! ### File names -/

/-- Function `set_cache_file(string cache_file)`, lines 298-300. -/
def MemoryManager.set_cache_file (m : MemoryManager) (cache_file : String) : MemoryManager :=
  { m with cache_file_ := cache_file }

/-- Function `set_header_file(string header_file)`, lines 302-304.  The body is
`header_file_=header_file_;`: the member is assigned to itself and the argument is not
read. -/
def MemoryManager.set_header_file (m : MemoryManager) (_header_file : String) :
    MemoryManager :=
  { m with header_file_ := m.header_file_ }

/-! ### Array handles -/

/-- The cache buffer as the handles see it: the allocator state together with the cells of
type `T` of the buffer.  A `T *` is the number of its cell, so `p[i]` is cell `p + i`. -/
structure Heap (σ α : Type) where
  /-- The allocator behind the global `allocator_`. -/
  allocator_ : σ
  /-- Content of the buffer, cell by cell. -/
  cells : Int → α

/-- The loop of `ArrayPtr::Copy`, lines 179-181:
`for (i = 0; i < length; i++) p1[i] = p2[i];`. -/
def ArrayPtr.copyLoop {α : Type} (p1 p2 length : Int) (cells : Int → α) : Int → α :=
  (List.range length.toNat).foldl
    (fun (c : Int → α) (i : Nat) => Function.update c (p1 + (i : Int)) (c (p2 + (i : Int))))
    cells

/-- Function `ArrayPtr::Copy(ARRAYTYPE other, index_t length)`, lines 174-182: `p1` is
`allocator_->Access(address_)`, `p2` is `other.get()`, that is
`allocator_->Access(other.address_)`, then the loop runs.  `Access`, declared on line 265
without a body, is a parameter; it may move pages, hence acts on the whole heap. -/
def ArrayPtr.Copy {σ α : Type} (Access : Heap σ α → Int → Result (Heap σ α) Int)
    (this other : Ptr) (length : Int) (h : Heap σ α) : Result (Heap σ α) Unit :=
  (Access h this.address_).bind fun p1 h1 =>
    (Access h1 other.address_).bind fun p2 h2 =>
      Result.ok () { h2 with cells := ArrayPtr.copyLoop p1 p2 length h2.cells }

/-- An allocator whose pages are all resident: `Access(address)` answers the pointer
`base + address` and moves nothing. -/
def flatAccess {σ α : Type} (base : Int) (h : Heap σ α) (address : Int) :
    Result (Heap σ α) Int :=
  Result.ok (base + address) h

/-- Buffer holding 10, 20, 30 in the cells 0, 1, 2 and 0 elsewhere. -/
def cells123 : Int → Int :=
  fun p => if p = 0 then 10 else if p = 1 then 20 else if p = 2 then 30 else 0

end tpiemm

/-! # Series expansion (`fastlib/u/dongryel/series_expansion/series_expansion.cc`)

`double` values are rationals (exact arithmetic); `sqrt(2 * bwsqd_)` is handed in as a
value.  `SeriesExpansionAux`, `Vector`, `Matrix` and `ArrayList` are not among the sources:
what the embedded functions ask of a `SeriesExpansionAux` is a parameter, vectors are lists
with out-of-range reads answering `0` and out-of-range writes dropped. -/

/-- Kernel types named in `PrintDebug`, lines 327-328. -/
inductive KernelType where
  | GAUSSIAN
  | EPANECHNIKOV
  deriving Repr, DecidableEq

/-- Expansion types named in `PrintDebug`, lines 329-330. -/
inductive ExpansionType where
  | FARFIELD
  | LOCAL
  deriving Repr, DecidableEq

/-- Data members of `SeriesExpansion` used in `series_expansion.cc`. -/
structure SeriesExpansion where
  /-- Member `kernel_type_`. -/
  kernel_type_ : KernelType
  /-- Member `expansion_type_`. -/
  expansion_type_ : ExpansionType
  /-- Member `center_`. -/
  center_ : List ℚ
  /-- Member `bwsqd_`. -/
  bwsqd_ : ℚ
  /-- Member `order_`. -/
  order_ : Int
  /-- Member `coeffs_`. -/
  coeffs_ : List ℚ
  deriving Repr, DecidableEq

namespace SeriesExpansion

/-- Constant `MAXINT` of `values.h`. -/
def MAXINT : Nat := 2147483647

/-- Function `Init`, lines 307-322. -/
def Init (kernel_type : KernelType) (expansion_type : ExpansionType) (center : List ℚ)
    (max_total_num_coeffs : Int) (bwsqd : ℚ) : SeriesExpansion :=
  { kernel_type_ := kernel_type
    expansion_type_ := expansion_type
    center_ := center
    bwsqd_ := bwsqd
    order_ := 0
    coeffs_ := List.replicate max_total_num_coeffs.toNat 0 }

/-! ### Monomial enumeration loop -/

/-- One execution of the statement `tmp[written] = tmp[read] * x[coord]`. -/
structure TmpAssign where
  /-- Index of the entry of `tmp` that is assigned. -/
  written : Nat
  /-- Index of the entry of `tmp` that is read. -/
  read : Nat
  /-- Index of the coordinate that multiplies it. -/
  coord : Nat
  deriving Repr, DecidableEq

/-- Variables of the heads/tail loop (lines 51-66 and 282-298), with the trace of the
assignments to `tmp` in program order. -/
structure MonomialLoop where
  /-- Array `heads`, of `dim + 1` entries. -/
  heads : List Nat
  /-- Array `tmp`. -/
  tmp : List ℚ
  /-- Variable `t`. -/
  t : Nat
  /-- Variable `tail`. -/
  tail : Nat
  /-- Assignments to `tmp` made so far. -/
  trace : List TmpAssign
  deriving Repr, DecidableEq

/-- The statement `tmp[w] = tmp[r] * x[i]` on the array `tmp`: entry `r` is read, entry
`w` is assigned, and the access is appended to the trace. -/
def MonomialLoop.assignTmp (x : List ℚ) (s : MonomialLoop) (w r i : Nat) : MonomialLoop :=
  { s with
    tmp := s.tmp.set w (s.tmp.getD r 0 * x.getD i 0)
    trace := s.trace ++ [{ written := w, read := r, coord := i }] }

/-- Body of the innermost loop, with its increment of `t`:
`tmp[t] = tmp[j] * x_r[i]; t++`. -/
def monomialInner (x : List ℚ) (i : Nat) (s : MonomialLoop) (j : Nat) : MonomialLoop :=
  let s1 := s.assignTmp x s.t j i
  { s1 with t := s1.t + 1 }

/-- Body of the loop over `i`: `head = heads[i]; heads[i] = t;` then
`for (j = head; j < tail; j++, t++)`. -/
def monomialDim (x : List ℚ) (s : MonomialLoop) (i : Nat) : MonomialLoop :=
  let head := s.heads.getD i 0
  (List.range' head (s.tail - head)).foldl (monomialInner x i)
    { s with heads := s.heads.set i s.t }

/-- Body of the loop over `k`, with its update `tail = t`; `k` itself is not read. -/
def monomialOrder (dim : Nat) (x : List ℚ) (s : MonomialLoop) (_k : Nat) : MonomialLoop :=
  let s1 := (List.range dim).foldl (monomialDim x) s
  { s1 with tail := s1.t }

/-- The heads/tail loop of `ComputeFarFieldCoeffs` (lines 51-66) and of
`EvaluateLocalField` (lines 282-298): `heads` zeroed, `heads[dim] = MAXINT`,
`tmp[0] = 1.0`, then `for (k = 1, t = 1, tail = 1; k <= order; k++, tail = t)`. -/
def monomialLoop (dim order : Nat) (x tmp : List ℚ) : MonomialLoop :=
  (List.range' 1 order).foldl (monomialOrder dim x)
    { heads := List.replicate dim 0 ++ [MAXINT]
      tmp := tmp.set 0 1
      t := 1
      tail := 1
      trace := [] }

/-! ### Far-field coefficients -/

/-- Body of the loop over the reference points, lines 40-73, acting on `coeffs_` and
`tmp`: the scaled coordinate difference `x_r`, the monomial loop, the tally
`coeffs_[i] += weights[row_num] * tmp[i]`. -/
def farFieldRow (dim : Nat) (data : Nat → Nat → ℚ) (center_ weights : List ℚ) (order : Int)
    (total_num_coeffs : Nat) (bw_times_sqrt_two : ℚ) (st : List ℚ × List ℚ)
    (row_num : Nat) : List ℚ × List ℚ :=
  let x_r := (List.range dim).map fun i => (data i row_num - center_.getD i 0) /
    bw_times_sqrt_two
  let tmp := (monomialLoop dim order.toNat x_r st.2).tmp
  let coeffs := (List.range total_num_coeffs).foldl
    (fun (c : List ℚ) (i : Nat) => c.set i (c.getD i 0 + weights.getD row_num 0 * tmp.getD i 0))
    st.1
  (coeffs, tmp)

/-- Function `ComputeFarFieldCoeffs`, lines 10-81.  `dim` is `data.n_rows()` and
`data i row` is `data.get(i, row)`; `total_num_coeffs` is what
`sea.get_total_num_coeffs(order)` answers, `C_k` what `sea.get_inv_multiindex_factorials()`
answers, `bw_times_sqrt_two` the value of `sqrt(2 * bwsqd_)`. -/
def ComputeFarFieldCoeffs (se : SeriesExpansion) (dim : Nat) (data : Nat → Nat → ℚ)
    (weights : List ℚ) (rows : List Nat) (order : Int) (total_num_coeffs : Nat)
    (C_k : List ℚ) (bw_times_sqrt_two : ℚ) : SeriesExpansion :=
  if se.order_ ≥ order then se
  else
    let tallied := rows.foldl
      (farFieldRow dim data se.center_ weights order total_num_coeffs bw_times_sqrt_two)
      (se.coeffs_, List.replicate total_num_coeffs 0)
    let scaled := (List.range' 1 (total_num_coeffs - 1)).foldl
      (fun (c : List ℚ) (r : Nat) => c.set r (c.getD r 0 * C_k.getD r 0)) tallied.1
    { se with order_ := order, coeffs_ := scaled }

/-! ### Hermite map of `TransFarToLocal` -/

/-- Order of the local expansion after lines 436-438 of `TransFarToLocal`. -/
def TransFarToLocal_order (order_ far_order : Int) : Int :=
  if far_order > order_ then far_order else order_

/-- Number of columns `limit = 2 * order_ + 1` that `hermite_map.Init(dimension, limit)`
is given, line 441. -/
def TransFarToLocal_limit (order_ : Int) : Int :=
  2 * order_ + 1

/-- Column arguments of the `hermite_map.set(j, ·, ·)` calls made for one `j`, lines
450-460, in program order: column 0, then if `order_ > 0` column 1 and, for
`k = 1, …, limit - 1`, column `k + 1`.  The stored values are floating-point numbers that
do not influence which calls are made. -/
def TransFarToLocal_setCols (order_ : Int) : List Int :=
  let limit := TransFarToLocal_limit order_
  [0] ++ (if order_ > 0 then
    [1] ++ (List.range' 1 (limit.toNat - 1)).map (fun (k : Nat) => (k : Int) + 1)
  else [])

/-- All `hermite_map.set(j, c, ·)` calls of the loop over `j`, lines 445-461, as pairs
`(j, c)` in program order. -/
def TransFarToLocal_setCalls (dimension order_ : Int) : List (Int × Int) :=
  (List.range dimension.toNat).flatMap fun (j : Nat) =>
    (TransFarToLocal_setCols order_).map fun c => ((j : Int), c)

/-- Column arguments of the `hermite_map.set(d, ·, ·)` calls of the sibling loop in
`ComputeLocalCoeffs`, lines 134-147 (the same in `EvaluateFarField`, lines 212-224), where
the map has `order + 1` columns and `k` runs below `order`. -/
def ComputeLocalCoeffs_setCols (order : Int) : List Int :=
  [0] ++ (if order > 0 then
    [1] ++ (if order > 1 then
      (List.range' 1 (order.toNat - 1)).map (fun (k : Nat) => (k : Int) + 1)
    else [])
  else [])

/-- Invariant of the trace and of the array: `t` is at least 1, `tail` is at most `t`, the
indices assigned so far are `1, 2, …, t - 1` in this order, every assignment read an index
below the one it assigned, used a coordinate below `dim`, and the array still holds what
it stored: `tmp[written] = tmp[read] * x[coord]`. -/
def MonomialLoop.TraceOk (dim : Nat) (x : List ℚ) (s : MonomialLoop) : Prop :=
  1 ≤ s.t ∧ s.tail ≤ s.t ∧ s.trace.map TmpAssign.written = List.range' 1 (s.t - 1) ∧
    ∀ e ∈ s.trace, e.read < e.written ∧ e.written < s.t ∧ e.coord < dim ∧
      (e.written < s.tmp.length →
        s.tmp.getD e.written 0 = s.tmp.getD e.read 0 * x.getD e.coord 0)

/-- Two runs of the loop agree on everything but the content of `tmp`. -/
def MonomialLoop.SameControl (s s' : MonomialLoop) : Prop :=
  s.heads = s'.heads ∧ s.t = s'.t ∧ s.tail = s'.tail ∧ s.trace = s'.trace

/-- Invariant of the counters after `c` rounds of the loop over `k`: `t = tail` is the
number of monomials of degree at most `c` in `dim` variables, and the block from `heads[i]`
to `tail` holds the monomials of degree `c` in the variables `i, …, dim - 1`. -/
def MonomialLoop.CountOk (dim c : Nat) (s : MonomialLoop) : Prop :=
  s.t = Nat.multichoose (dim + 1) c ∧ s.tail = s.t ∧ dim ≤ s.heads.length ∧
    ∀ i, i < dim → s.heads.getD i 0 + Nat.multichoose (dim - i) c = s.tail

end SeriesExpansion

/-! # Least angle regression (`fastlib/branches/fastlib-stl/contrib/niche/lars/lars.h`)

Matrices and vectors are those of Mathlib over a field (exact arithmetic).  `sqrt`,
`solve` and the content of a freshly constructed `mat` belong to the matrix library, which
is not part of the repository: they are parameters of the embedded function. -/

namespace Lars

/-- Function `trimatl(A)` of the matrix library: the lower-triangular part of `A`. -/
def trimatl {K : Type} [Zero K] {n : Nat} (A : Matrix (Fin n) (Fin n) K) :
    Matrix (Fin n) (Fin n) K :=
  fun i j => if j ≤ i then A i j else 0

/-- Function `CholeskyInsert(R, new_x, new_Gram_col)`, lines 364-387, returning the new `R`
for an `n × n` matrix `R`.  For `n == 0` the result is the `1 × 1` matrix holding
`norm(new_x, 2)`, that is `sqrt(dot(new_x, new_x))`.  Otherwise `new_R`, constructed with
the content `fresh`, receives in turn `R` in its leading block, `R_k` in the last column,
zeros in the last row and `R_kk` in the corner. -/
def CholeskyInsert {K : Type} [Field K] (sqrt : K → K) {n d : Nat}
    (solve : Matrix (Fin n) (Fin n) K → (Fin n → K) → Fin n → K)
    (fresh : Matrix (Fin (n + 1)) (Fin (n + 1)) K)
    (R : Matrix (Fin n) (Fin n) K) (new_x : Fin d → K) (new_Gram_col : Fin n → K) :
    Matrix (Fin (n + 1)) (Fin (n + 1)) K :=
  if n = 0 then
    fun _ _ => sqrt (Matrix.dotProduct new_x new_x)
  else
    let new_R0 := fresh
    let new_R1 : Matrix (Fin (n + 1)) (Fin (n + 1)) K := fun i j =>
      if h : i.val < n ∧ j.val < n then R ⟨i.val, h.1⟩ ⟨j.val, h.2⟩ else new_R0 i j
    let R_k := solve (trimatl R.transpose) new_Gram_col
    let R_kk := sqrt (Matrix.dotProduct new_x new_x - Matrix.dotProduct R_k R_k)
    let new_R2 : Matrix (Fin (n + 1)) (Fin (n + 1)) K := fun i j =>
      if h : i.val < n ∧ j.val = n then R_k ⟨i.val, h.1⟩ else new_R1 i j
    let new_R3 : Matrix (Fin (n + 1)) (Fin (n + 1)) K := fun i j =>
      if i.val = n ∧ j.val < n then 0 else new_R2 i j
    let new_R4 : Matrix (Fin (n + 1)) (Fin (n + 1)) K := fun i j =>
      if i.val = n ∧ j.val = n then R_kk else new_R3 i j
    new_R4

end Lars

namespace tpiemm

/-! ## Auxiliary facts -/

/-- Truncating division of a non-negative offset by a positive page size is the floor of
the rational quotient. -/
theorem tdiv_eq_floor (x p : Int) (hx : 0 ≤ x) (hp : 0 < p) :
    Int.tdiv x p = ⌊(x : ℚ) / (p : ℚ)⌋ := by
  rw [Int.tdiv_eq_ediv hx hp.le]
  have h := Rat.floor_intCast_div_natCast x p.toNat
  have hc : ((p.toNat : ℤ)) = p := Int.toNat_of_nonneg hp.le
  have hq : ((p.toNat : ℕ) : ℚ) = (p : ℚ) := by
    rw [← Int.cast_natCast, hc]
  rw [hq, hc] at h
  exact h.symm

/-! ## Fault interceptor -/

/-- C1: for a fault address inside the cache buffer (`cache_ ≤ a < cache_ + cache_size_`,
page size positive) `FaultHandler` performs a single `SetPageModified` call, on the slot
`⌊(a - cache_) / page_size_⌋`, and returns `1`. -/
theorem FaultHandler_inside (SetPageModified : MemoryManager → Int → MemoryManager)
    (allocator : MemoryManager) (a serious : Int)
    (hlo : allocator.cache_ ≤ a) (hhi : a < allocator.cache_ + allocator.cache_size_)
    (hps : 0 < allocator.page_size_) :
    FaultHandler SetPageModified allocator a serious =
      Result.ok 1 (SetPageModified allocator
        ⌊((a - allocator.cache_ : ℤ) : ℚ) / (allocator.page_size_ : ℚ)⌋) := by
  unfold FaultHandler
  rw [if_pos ⟨hlo, hhi⟩]
  simp only []
  rw [tdiv_eq_floor _ _ (by omega) hps]

/-- Instance of C1: buffer at 65536 of 256 KiB, 4 KiB pages, fault at offset 5000. -/
theorem FaultHandler_inside_witness :
    (MemoryManager.mk0 65536 4096).cache_ ≤ 70536 ∧
    (70536 : Int) < (MemoryManager.mk0 65536 4096).cache_ +
      (MemoryManager.mk0 65536 4096).cache_size_ ∧
    0 < (MemoryManager.mk0 65536 4096).page_size_ ∧
    FaultHandler MemoryManager.SetPageModified (MemoryManager.mk0 65536 4096) 70536 0 =
      Result.ok 1 (MemoryManager.SetPageModified (MemoryManager.mk0 65536 4096)
        ⌊(((70536 : ℤ) - (MemoryManager.mk0 65536 4096).cache_ : ℤ) : ℚ) /
          ((MemoryManager.mk0 65536 4096).page_size_ : ℚ)⌋) :=
  ⟨by decide, by decide, by decide,
   FaultHandler_inside MemoryManager.SetPageModified (MemoryManager.mk0 65536 4096) 70536 0
     (by decide) (by decide) (by decide)⟩

/-- C2: for a fault address outside the cache buffer `FaultHandler` ends in `FATAL`: it
returns no value (in particular not `1`), and the manager state at the abort is the state
at entry whatever `SetPageModified` does, so no page is marked as modified. -/
theorem FaultHandler_outside (SetPageModified : MemoryManager → Int → MemoryManager)
    (allocator : MemoryManager) (a serious : Int)
    (hout : a < allocator.cache_ ∨ a ≥ allocator.cache_ + allocator.cache_size_) :
    (FaultHandler SetPageModified allocator a serious).isFatal = true ∧
    (FaultHandler SetPageModified allocator a serious).value? ≠ some 1 ∧
    (FaultHandler SetPageModified allocator a serious).finalState = allocator ∧
    (∀ v s, FaultHandler SetPageModified allocator a serious ≠ Result.ok v s) := by
  have hn : ¬ (a ≥ allocator.cache_ ∧ a < allocator.cache_ + allocator.cache_size_) := by
    omega
  unfold FaultHandler
  rw [if_neg hn]
  simp [Result.isFatal, Result.value?, Result.finalState]

/-- Instance of C2: a fault just past the end of the buffer. -/
theorem FaultHandler_outside_witness :
    ((65536 + 262144 : Int) ≥ (MemoryManager.mk0 65536 4096).cache_ +
        (MemoryManager.mk0 65536 4096).cache_size_) ∧
    (FaultHandler MemoryManager.SetPageModified (MemoryManager.mk0 65536 4096)
        (65536 + 262144) 1).isFatal = true :=
  ⟨by decide,
   (FaultHandler_outside MemoryManager.SetPageModified (MemoryManager.mk0 65536 4096)
      (65536 + 262144) 1 (Or.inr (by decide))).1⟩

/-! ## Stride -/

/-- C5 (as stated, refuted): for `T` of size 8 and alignment 4 (`sizeof(Tchar<T>) = 12`)
`StrideOf<T>()` is 4, which is not the smallest multiple of 4 that is at least 8. -/
theorem StrideOf_not_smallest_multiple :
    0 < 8 ∧ 0 < 4 ∧ 4 ∣ 8 ∧ StrideOf (8 + 4) 8 = 4 ∧
      ¬ IsSmallestMultipleGE 4 8 (StrideOf (8 + 4) 8) := by
  refine ⟨by decide, by decide, by decide, by decide, ?_⟩
  rintro ⟨_, h, _⟩
  revert h
  decide

/-- C5 (amended): for `T` of size `s > 0` and natural alignment `a > 0` with `a ∣ s` and
`sizeof(Tchar<T>) = s + a`, `StrideOf<T>()` equals the alignment `a`; it is the smallest
multiple of `a` at least `s` exactly when `s = a`. -/
theorem StrideOf_eq_alignment (s a : Nat) (hs : 0 < s) (ha : 0 < a) (hd : a ∣ s) :
    StrideOf (s + a) s = a ∧ (IsSmallestMultipleGE a s (StrideOf (s + a) s) ↔ s = a) := by
  have h1 : StrideOf (s + a) s = a := by
    unfold StrideOf
    rw [if_pos (by omega)]
    omega
  refine ⟨h1, ?_⟩
  rw [h1]
  constructor
  · rintro ⟨_, hle, _⟩
    exact Nat.le_antisymm hle (Nat.le_of_dvd hs hd)
  · intro h
    subst h
    exact ⟨dvd_rfl, le_rfl, fun m _ hm => hm⟩

/-- Instance of the amended C5: a `double`-like type, size 8 and alignment 8. -/
theorem StrideOf_eq_alignment_witness :
    0 < 8 ∧ 0 < 8 ∧ 8 ∣ 8 ∧ StrideOf (8 + 8) 8 = 8 :=
  ⟨by decide, by decide, by decide, (StrideOf_eq_alignment 8 8 (by decide) (by decide)
    (by decide)).1⟩

/-! ## Configuration -/

/-- C6 (failing input): on the freshly constructed manager (page size 4096, system page
size 4096) `set_page_size(100)` does not abort and stores 100, which is not a multiple of
4096: the guard tests the old `page_size_`, not the argument.  And with a system page size
of 65536 the call `set_page_size(65536)` aborts although 65536 is a multiple of it. -/
theorem set_page_size_ignores_argument :
    (MemoryManager.mk0 0 4096).set_page_size 100 =
        Result.ok () { MemoryManager.mk0 0 4096 with page_size_ := 100 } ∧
      Int.tmod 100 (MemoryManager.mk0 0 4096).system_page_size_ ≠ 0 ∧
      ((MemoryManager.mk0 0 65536).set_page_size 65536).isFatal = true ∧
      Int.tmod 65536 (MemoryManager.mk0 0 65536).system_page_size_ = 0 := by
  refine ⟨by rfl, by decide, by rfl, by decide⟩

/-! ## Handles: aliasing -/

/-- The loop of `ResetPageTimers` only rewrites `page_timestamp_`. -/
theorem resetLoop_eq (n : Nat) (m : MemoryManager) :
    (List.range n).foldl
        (fun acc i => { acc with page_timestamp_ := acc.page_timestamp_.set i 0 }) m =
      { m with page_timestamp_ :=
          (List.range n).foldl (fun l i => l.set i 0) m.page_timestamp_ } := by
  induction n with
  | zero => simp
  | succ k ih => simp [List.range_succ, List.foldl_append, ih]

/-- Entries of an array after the first `n` of them were overwritten with `0`. -/
theorem zeroLoop_getElem? (n : Nat) (l : List Int) (k : Nat) :
    ((List.range n).foldl (fun l i => l.set i 0) l)[k]? =
      if k < n then (l[k]?).map (fun _ => 0) else l[k]? := by
  induction n with
  | zero => simp
  | succ j ih =>
    simp only [List.range_succ, List.foldl_append, List.foldl_cons, List.foldl_nil]
    rw [List.getElem?_set]
    by_cases hjk : j = k
    · subst hjk
      simp only [if_true, lt_add_iff_pos_right, zero_lt_one, List.length_set]
      by_cases hl : j < l.length
      · have hlen : ((List.range j).foldl (fun l i => l.set i 0) l).length = l.length := by
          clear ih
          induction j generalizing l with
          | zero => simp
          | succ i ihi =>
            simp only [List.range_succ, List.foldl_append, List.foldl_cons, List.foldl_nil,
              List.length_set]
            exact ihi l (by omega)
        simp [hlen, hl]
      · have hlen : ((List.range j).foldl (fun l i => l.set i 0) l).length = l.length := by
          clear ih hl
          induction j generalizing l with
          | zero => simp
          | succ i ihi =>
            simp only [List.range_succ, List.foldl_append, List.foldl_cons, List.foldl_nil,
              List.length_set]
            exact ihi l
        have : l[j]? = none := by simp; omega
        simp [hlen, hl, this]
    · rw [if_neg hjk, ih]
      by_cases h1 : k < j
      · simp [h1, Nat.lt_succ_of_lt h1]
      · have : ¬ k < j + 1 := by omega
        simp [h1, this]

/-- C10 (as stated, refuted): with two pages stamped 1 and 2, page 0 is older than page 1
before `ResetPageTimers` and not older after it. -/
theorem ResetPageTimers_loses_order :
    entry ({ MemoryManager.mk0 0 4096 with
        num_of_pages_ := 2, page_timestamp_ := [1, 2] }).page_timestamp_ 0 <
      entry ({ MemoryManager.mk0 0 4096 with
        num_of_pages_ := 2, page_timestamp_ := [1, 2] }).page_timestamp_ 1 ∧
    ¬ (entry ({ MemoryManager.mk0 0 4096 with
        num_of_pages_ := 2, page_timestamp_ := [1, 2] }).ResetPageTimers.page_timestamp_ 0 <
      entry ({ MemoryManager.mk0 0 4096 with
        num_of_pages_ := 2, page_timestamp_ := [1, 2] }).ResetPageTimers.page_timestamp_ 1) := by
  decide

/-- C10 (amended): `ResetPageTimers` sets `page_timer_` to 0 and the timestamp of every
page below `num_of_pages_` to 0; so for pages `i`, `j` below `num_of_pages_` the two
timestamps are equal afterwards: an earlier `<` becomes `≤`, never `<`. -/
theorem ResetPageTimers_zeroes (m : MemoryManager) (i j : Nat)
    (hi : (i : Int) < m.num_of_pages_) (hj : (j : Int) < m.num_of_pages_)
    (hil : i < m.page_timestamp_.length) (hjl : j < m.page_timestamp_.length) :
    m.ResetPageTimers.page_timer_ = 0 ∧
      m.ResetPageTimers.page_timestamp_[i]? = some 0 ∧
      m.ResetPageTimers.page_timestamp_[j]? = some 0 ∧
      (entry m.page_timestamp_ i < entry m.page_timestamp_ j →
        entry m.ResetPageTimers.page_timestamp_ i ≤
          entry m.ResetPageTimers.page_timestamp_ j) ∧
      ¬ (entry m.ResetPageTimers.page_timestamp_ i <
          entry m.ResetPageTimers.page_timestamp_ j) := by
  have key : ∀ k : Nat, (k : Int) < m.num_of_pages_ → k < m.page_timestamp_.length →
      m.ResetPageTimers.page_timestamp_[k]? = some 0 := by
    intro k hk hkl
    unfold MemoryManager.ResetPageTimers
    rw [resetLoop_eq]
    simp only []
    rw [zeroLoop_getElem?, if_pos (by omega)]
    simp [List.getElem?_eq_getElem hkl]
  have hent : ∀ k : Nat, (k : Int) < m.num_of_pages_ → k < m.page_timestamp_.length →
      entry m.ResetPageTimers.page_timestamp_ k = 0 := by
    intro k hk hkl
    simp [entry, List.getD, key k hk hkl]
  refine ⟨?_, key i hi hil, key j hj hjl, ?_, ?_⟩
  · unfold MemoryManager.ResetPageTimers
    rw [resetLoop_eq]
  · intro _
    rw [hent i hi hil, hent j hj hjl]
  · rw [hent i hi hil, hent j hj hjl]
    decide

/-- Instance of the amended C10 on the two-page manager stamped 1 and 2. -/
theorem ResetPageTimers_zeroes_witness :
    ({ MemoryManager.mk0 0 4096 with
        num_of_pages_ := 2, page_timestamp_ := [1, 2] }).ResetPageTimers.page_timestamp_[0]? =
      some 0 ∧
    ({ MemoryManager.mk0 0 4096 with
        num_of_pages_ := 2, page_timestamp_ := [1, 2] }).ResetPageTimers.page_timestamp_[1]? =
      some 0 :=
  ⟨(ResetPageTimers_zeroes { MemoryManager.mk0 0 4096 with
        num_of_pages_ := 2, page_timestamp_ := [1, 2] } 0 1
      (by decide) (by decide) (by decide) (by decide)).2.1,
   (ResetPageTimers_zeroes { MemoryManager.mk0 0 4096 with
        num_of_pages_ := 2, page_timestamp_ := [1, 2] } 0 1
      (by decide) (by decide) (by decide) (by decide)).2.2.1⟩

/-! ## Handles: pinning -/

/-- C7: when the allocator's `LockAndAccess(a)` answers `p` and its `Unlock(a)` returns,
`Lock()` caches `p`, `Unlock()` clears the cached pointer and runs the allocator's
`Unlock(a)` once, neither changes the address; `Lock()` then `Unlock()` leaves the handle
unlocked after exactly one `LockAndAccess(a)` and one `Unlock(a)` (as the recording
allocator shows), and a further `Lock()` again caches what `LockAndAccess(a)` answers. -/
theorem Ptr_Lock_Unlock {σ : Type} (LockAndAccess : σ → Int → Result σ Int)
    (allocUnlock : σ → Int → Result σ Unit) (h : Ptr) (m m1 m2 : σ) (p : Int)
    (hL : LockAndAccess m h.address_ = Result.ok p m1)
    (hU : allocUnlock m1 h.address_ = Result.ok () m2) :
    Ptr.Lock LockAndAccess h m =
        Result.ok { address_ := h.address_, p_ := p, is_owner_ := h.is_owner_ } m1 ∧
      Ptr.Unlock allocUnlock { address_ := h.address_, p_ := p, is_owner_ := h.is_owner_ } m1 =
        Result.ok { address_ := h.address_, p_ := 0, is_owner_ := h.is_owner_ } m2 ∧
      (Ptr.Lock LockAndAccess h m).bind (Ptr.Unlock allocUnlock) =
        Result.ok { address_ := h.address_, p_ := 0, is_owner_ := h.is_owner_ } m2 ∧
      (∀ (q : Int) (m3 : σ), LockAndAccess m2 h.address_ = Result.ok q m3 →
        Ptr.Lock LockAndAccess { address_ := h.address_, p_ := 0, is_owner_ := h.is_owner_ } m2 =
          Result.ok { address_ := h.address_, p_ := q, is_owner_ := h.is_owner_ } m3) ∧
      (∀ base : Int,
        (Ptr.Lock (recordLockAndAccess base) h []).bind (Ptr.Unlock recordUnlock) =
          Result.ok { address_ := h.address_, p_ := 0, is_owner_ := h.is_owner_ }
            [AllocatorCall.LockAndAccess h.address_, AllocatorCall.Unlock h.address_]) := by
  have e1 : Ptr.Lock LockAndAccess h m =
      Result.ok { address_ := h.address_, p_ := p, is_owner_ := h.is_owner_ } m1 := by
    simp [Ptr.Lock, hL, Result.bind]
  have e2 : Ptr.Unlock allocUnlock
      { address_ := h.address_, p_ := p, is_owner_ := h.is_owner_ } m1 =
      Result.ok { address_ := h.address_, p_ := 0, is_owner_ := h.is_owner_ } m2 := by
    simp [Ptr.Unlock, hU, Result.bind]
  refine ⟨e1, e2, ?_, ?_, ?_⟩
  · rw [e1]
    exact e2
  · intro q m3 hq
    simp [Ptr.Lock, hq, Result.bind]
  · intro base
    simp [Ptr.Lock, Ptr.Unlock, recordLockAndAccess, recordUnlock, Result.bind]

/-- Instance of C7 with the recording allocator and a fresh handle on address 100. -/
theorem Ptr_Lock_Unlock_witness :
    recordLockAndAccess 65536 [] (Ptr.new.Reset 100).address_ =
        Result.ok 65636 [AllocatorCall.LockAndAccess 100] ∧
      recordUnlock [AllocatorCall.LockAndAccess 100] (Ptr.new.Reset 100).address_ =
        Result.ok () [AllocatorCall.LockAndAccess 100, AllocatorCall.Unlock 100] ∧
      (Ptr.Lock (recordLockAndAccess 65536) (Ptr.new.Reset 100) []).bind
          (Ptr.Unlock recordUnlock) =
        Result.ok { address_ := 100, p_ := 0, is_owner_ := true }
          [AllocatorCall.LockAndAccess 100, AllocatorCall.Unlock 100] :=
  ⟨by decide, by decide,
   (Ptr_Lock_Unlock (recordLockAndAccess 65536) recordUnlock (Ptr.new.Reset 100) []
      [AllocatorCall.LockAndAccess 100]
      [AllocatorCall.LockAndAccess 100, AllocatorCall.Unlock 100] 65636
      (by decide) (by decide)).2.2.1⟩

/-- C8 (as stated, refuted): page 0 is pinned once through another handle, on the object
at address 0; a handle on address 100 (same page) that was never locked (cached pointer
`NULL`) calls `Unlock()`: the call completes normally and the lock count of page 0 drops
from 1 to 0. -/
theorem Ptr_Unlock_unlocked_completes :
    (Ptr.new.Reset 100).p_ = 0 ∧
      MemoryManager.Lock { MemoryManager.mk0 0 4096 with page_locks_ := [0] } 0 =
        Result.ok () { MemoryManager.mk0 0 4096 with page_locks_ := [1] } ∧
      Ptr.Unlock MemoryManager.Unlock (Ptr.new.Reset 100)
          { MemoryManager.mk0 0 4096 with page_locks_ := [1] } =
        Result.ok (Ptr.new.Reset 100) { MemoryManager.mk0 0 4096 with page_locks_ := [0] } ∧
      (Ptr.Unlock MemoryManager.Unlock (Ptr.new.Reset 100)
          { MemoryManager.mk0 0 4096 with page_locks_ := [1] }).isFatal = false := by
  refine ⟨by rfl, by rfl, by rfl, by rfl⟩

/-- C8 (amended): `Unlock()` does not look at the handle's own state.  On a handle that is
not locked (cached pointer `NULL`) it aborts exactly when the lock count of the addressed
page is not positive; when that count is positive (the page is pinned through another
handle) it completes normally and decrements the count. -/
theorem Ptr_Unlock_unlocked (h : Ptr) (m : MemoryManager) (hp : h.p_ = 0) :
    ((Ptr.Unlock MemoryManager.Unlock h m).isFatal = true ↔
        entry m.page_locks_ (Int.tdiv h.address_ m.page_size_).toNat ≤ 0) ∧
      (0 < entry m.page_locks_ (Int.tdiv h.address_ m.page_size_).toNat →
        Ptr.Unlock MemoryManager.Unlock h m =
          Result.ok h { m with page_locks_ :=
            (m.page_locks_.set (Int.tdiv h.address_ m.page_size_).toNat
              (entry m.page_locks_ (Int.tdiv h.address_ m.page_size_).toNat - 1)) }) := by
  have hh : ({ address_ := h.address_, p_ := 0, is_owner_ := h.is_owner_ } : Ptr) = h := by
    cases h
    simp_all
  by_cases hc : entry m.page_locks_ (Int.tdiv h.address_ m.page_size_).toNat - 1 < 0
  · constructor
    · simp [Ptr.Unlock, MemoryManager.Unlock, hc, Result.bind, Result.isFatal]
      omega
    · intro hpos
      omega
  · constructor
    · simp [Ptr.Unlock, MemoryManager.Unlock, hc, Result.bind, Result.isFatal]
      omega
    · intro _
      simp [Ptr.Unlock, MemoryManager.Unlock, hc, Result.bind, hh]

/-- Instance of the amended C8: the never-locked handle on a page nobody has pinned. -/
theorem Ptr_Unlock_unlocked_witness :
    (Ptr.new.Reset 100).p_ = 0 ∧
      (Ptr.Unlock MemoryManager.Unlock (Ptr.new.Reset 100)
          { MemoryManager.mk0 0 4096 with page_locks_ := [0] }).isFatal = true :=
  ⟨by rfl,
   (Ptr_Unlock_unlocked (Ptr.new.Reset 100)
      { MemoryManager.mk0 0 4096 with page_locks_ := [0] } (by rfl)).1.2 (by decide)⟩

/-! ## Victim selection -/

/-- The scan only ever holds a resident, unlocked page among those it has visited. -/
theorem victim_fold_inv (m : MemoryManager) (n : Nat) :
    ∀ (l : List Nat) (best : Option Nat), (∀ i ∈ l, i < n) →
      (∀ b, best = some b →
        b < n ∧ entry m.page_address_ b ≠ 0 ∧ entry m.page_locks_ b = 0) →
      ∀ r, l.foldl (victimStep m) best = some r →
        r < n ∧ entry m.page_address_ r ≠ 0 ∧ entry m.page_locks_ r = 0 := by
  intro l
  induction l with
  | nil =>
    intro best _ hb r hr
    exact hb r hr
  | cons i tl ih =>
    intro best hl hb r hr
    rw [List.foldl_cons] at hr
    refine ih (victimStep m best i) (fun k hk => hl k (List.mem_cons_of_mem _ hk)) ?_ r hr
    intro b hbest
    have hi : i < n := hl i (List.mem_cons_self _ _)
    unfold victimStep at hbest
    split_ifs at hbest with hc
    · cases best with
      | none =>
        simp only [Option.some.injEq] at hbest
        subst hbest
        exact ⟨hi, hc.1, hc.2⟩
      | some b0 =>
        simp only at hbest
        split_ifs at hbest with hlt
        · simp only [Option.some.injEq] at hbest
          subst hbest
          exact ⟨hi, hc.1, hc.2⟩
        · exact hb b hbest
    · exact hb b hbest

/-- Once the scan holds a candidate it keeps holding one. -/
theorem victim_fold_isSome (m : MemoryManager) :
    ∀ (l : List Nat) (best : Option Nat), best.isSome = true →
      (l.foldl (victimStep m) best).isSome = true := by
  intro l
  induction l with
  | nil => intro best hb; exact hb
  | cons i tl ih =>
    intro best hb
    rw [List.foldl_cons]
    apply ih
    unfold victimStep
    cases best with
    | none => simp at hb
    | some b0 =>
      by_cases hc : entry m.page_address_ i ≠ 0 ∧ entry m.page_locks_ i = 0
      · rw [if_pos hc]
        by_cases hlt : entry m.page_timestamp_ i < entry m.page_timestamp_ b0
        · simp [hlt]
        · simp [hlt]
      · rw [if_neg hc]
        rfl

/-- The scan finds a candidate when the visited pages contain a resident unlocked one. -/
theorem victim_fold_finds (m : MemoryManager) :
    ∀ (l : List Nat) (best : Option Nat),
      (∃ i ∈ l, entry m.page_address_ i ≠ 0 ∧ entry m.page_locks_ i = 0) →
      (l.foldl (victimStep m) best).isSome = true := by
  intro l
  induction l with
  | nil => intro best h; simp at h
  | cons i tl ih =>
    intro best h
    rw [List.foldl_cons]
    obtain ⟨k, hk, hres, hlock⟩ := h
    rcases List.mem_cons.mp hk with rfl | hk
    · apply victim_fold_isSome
      unfold victimStep
      rw [if_pos ⟨hres, hlock⟩]
      cases best with
      | none => simp
      | some b0 =>
        by_cases hlt : entry m.page_timestamp_ k < entry m.page_timestamp_ b0
        · simp [hlt]
        · simp [hlt]
    · exact ih _ ⟨k, hk, hres, hlock⟩

/-- Victim selection returns, leaving the state alone, as soon as some page below
`num_of_pages_` is resident and unlocked. -/
theorem LeastNeededPage_returns (m : MemoryManager) (i : Nat)
    (hi : (i : Int) < m.num_of_pages_) (hres : entry m.page_address_ i ≠ 0)
    (hlock : entry m.page_locks_ i = 0) :
    ∃ v : Nat, m.LeastNeededPage = Result.ok (v : Int) m := by
  have hmem : i ∈ List.range m.num_of_pages_.toNat := by
    rw [List.mem_range]
    omega
  have hs := victim_fold_finds m (List.range m.num_of_pages_.toNat) none
    ⟨i, hmem, hres, hlock⟩
  unfold MemoryManager.LeastNeededPage
  cases hf : (List.range m.num_of_pages_.toNat).foldl (victimStep m) none with
  | none => rw [hf] at hs; simp at hs
  | some v => exact ⟨v, rfl⟩

/-- C4: whatever the manager state, a page returned by the victim selection has lock count
0 (never a lock count greater than 0), is resident and lies below `num_of_pages_`; the
selection itself changes nothing. -/
theorem LeastNeededPage_unlocked (m s : MemoryManager) (v : Int)
    (h : m.LeastNeededPage = Result.ok v s) :
    s = m ∧ 0 ≤ v ∧ v < m.num_of_pages_ ∧
      entry m.page_locks_ v.toNat = 0 ∧ ¬ (entry m.page_locks_ v.toNat > 0) ∧
      entry m.page_address_ v.toNat ≠ 0 := by
  unfold MemoryManager.LeastNeededPage at h
  cases hf : (List.range m.num_of_pages_.toNat).foldl (victimStep m) none with
  | none => rw [hf] at h; simp at h
  | some r =>
    rw [hf] at h
    simp only [Result.ok.injEq] at h
    obtain ⟨hv, hs⟩ := h
    have inv := victim_fold_inv m m.num_of_pages_.toNat (List.range m.num_of_pages_.toNat)
      none (fun i hi => List.mem_range.mp hi) (fun b hb => by simp at hb) r hf
    subst hv
    obtain ⟨h1, h2, h3⟩ := inv
    refine ⟨hs.symm, by omega, by omega, ?_, ?_, ?_⟩
    · simpa using h3
    · simp [h3]
    · simpa using h2

/-- Instance of C4: three resident pages stamped 1, 5, 3; page 0, the least recently
touched, is locked, and the selection returns page 2. -/
theorem LeastNeededPage_unlocked_witness :
    ({ MemoryManager.mk0 65536 4096 with
        num_of_pages_ := 3, page_address_ := [65536, 69632, 73728],
        page_timestamp_ := [1, 5, 3], page_locks_ := [1, 0, 0] }).LeastNeededPage =
      Result.ok 2 { MemoryManager.mk0 65536 4096 with
        num_of_pages_ := 3, page_address_ := [65536, 69632, 73728],
        page_timestamp_ := [1, 5, 3], page_locks_ := [1, 0, 0] } ∧
    entry ({ MemoryManager.mk0 65536 4096 with
        num_of_pages_ := 3, page_address_ := [65536, 69632, 73728],
        page_timestamp_ := [1, 5, 3], page_locks_ := [1, 0, 0] }).page_locks_
      (2 : Int).toNat = 0 :=
  ⟨by decide,
   (LeastNeededPage_unlocked { MemoryManager.mk0 65536 4096 with
        num_of_pages_ := 3, page_address_ := [65536, 69632, 73728],
        page_timestamp_ := [1, 5, 3], page_locks_ := [1, 0, 0] }
      { MemoryManager.mk0 65536 4096 with
        num_of_pages_ := 3, page_address_ := [65536, 69632, 73728],
        page_timestamp_ := [1, 5, 3], page_locks_ := [1, 0, 0] } 2 (by decide)).2.2.2.1⟩

/-! ## Address allocator -/

/-- The padded size is at least the size (positive stride). -/
theorem le_PaddedSize (size stride : Int) (hst : 0 < stride) :
    size ≤ PaddedSize size stride := by
  unfold PaddedSize
  have h1 := Int.ediv_add_emod (size + stride - 1) stride
  have h2 := Int.emod_lt_of_pos (size + stride - 1) hst
  have h3 : (size + stride - 1) / stride * stride = stride * ((size + stride - 1) / stride) :=
    Int.mul_comm _ _
  rw [h3]
  omega

/-- Page index of an address written as page base plus in-page offset. -/
theorem page_of_offset (c p o : Int) (hp : 0 < p) (ho0 : 0 ≤ o) (ho : o < p) :
    (c * p + o) / p = c := by
  rw [Int.add_comm, Int.add_mul_ediv_right _ _ (ne_of_gt hp), Int.ediv_eq_zero_of_lt ho0 ho]
  simp

/-- One allocation: it returns, at or after the frontier, keeps the page size and the
offset bounds, moves the frontier past the padded object, and the object stays in one
page. -/
theorem Alloc_step (m : MemoryManager) (size stride : Int)
    (hps : 0 < m.page_size_) (hoff0 : 0 ≤ m.current_offset_)
    (hoff : m.current_offset_ ≤ m.page_size_)
    (hsz : 0 < size) (hst : 0 < stride) (hpad : PaddedSize size stride ≤ m.page_size_) :
    ∃ (a : Int) (m1 : MemoryManager), m.Alloc size stride = Result.ok a m1 ∧
      m1.page_size_ = m.page_size_ ∧ 0 ≤ m1.current_offset_ ∧
      m1.current_offset_ ≤ m1.page_size_ ∧ m.frontier ≤ a ∧
      m1.frontier = a + PaddedSize size stride ∧
      a / m.page_size_ = (a + size - 1) / m.page_size_ := by
  have hle := le_PaddedSize size stride hst
  have hnf : ¬ size > m.page_size_ := by omega
  unfold MemoryManager.Alloc
  rw [if_neg hnf]
  by_cases hfit : m.page_size_ - m.current_offset_ < PaddedSize size stride
  · have hF : m.FitsInPage size stride = false := by
      simp [MemoryManager.FitsInPage, hfit]
    refine ⟨_, _, rfl, ?_⟩
    simp only [hF, MemoryManager.NextPage, MemoryManager.frontier, Bool.false_eq_true,
      if_false]
    refine ⟨trivial, by omega, by omega, ?_, by ring, ?_⟩
    · have : (m.current_page_ + 1) * m.page_size_ =
          m.current_page_ * m.page_size_ + m.page_size_ := by ring
      omega
    · rw [page_of_offset _ _ 0 hps le_rfl hps]
      have : (m.current_page_ + 1) * m.page_size_ + 0 + size - 1 =
          (m.current_page_ + 1) * m.page_size_ + (size - 1) := by ring
      rw [this, page_of_offset _ _ (size - 1) hps (by omega) (by omega)]
  · have hF : m.FitsInPage size stride = true := by
      simp [MemoryManager.FitsInPage, hfit]
    refine ⟨_, _, rfl, ?_⟩
    simp only [hF, MemoryManager.frontier, if_true]
    refine ⟨trivial, by omega, by omega, le_rfl, by ring, ?_⟩
    rw [page_of_offset _ _ m.current_offset_ hps hoff0 (by omega)]
    have : m.current_page_ * m.page_size_ + m.current_offset_ + size - 1 =
        m.current_page_ * m.page_size_ + (m.current_offset_ + size - 1) := by ring
    rw [this, page_of_offset _ _ (m.current_offset_ + size - 1) hps (by omega) (by omega)]

/-- A sequence of allocations returns addresses at or after the frontier, strictly
increasing, each object inside one page. -/
theorem mallocSeq_spec (ps : Int) (hps : 0 < ps) :
    ∀ (reqs : List (Int × Int)) (m : MemoryManager), m.page_size_ = ps →
      0 ≤ m.current_offset_ → m.current_offset_ ≤ ps →
      (∀ r ∈ reqs, 0 < r.1 ∧ 0 < r.2 ∧ PaddedSize r.1 r.2 ≤ ps) →
      ∃ (addrs : List Int) (m1 : MemoryManager), mallocSeq m reqs = Result.ok addrs m1 ∧
        addrs.length = reqs.length ∧ (∀ a ∈ addrs, m.frontier ≤ a) ∧
        addrs.Pairwise (fun a b => a < b) ∧
        List.Forall₂ (fun a r => a / ps = (a + r.1 - 1) / ps) addrs reqs := by
  intro reqs
  induction reqs with
  | nil =>
    intro m _ _ _ _
    exact ⟨[], m, rfl, rfl, by simp, List.Pairwise.nil, List.Forall₂.nil⟩
  | cons r rest ih =>
    intro m hm hoff0 hoff hreq
    obtain ⟨hsz, hst, hpad⟩ := hreq r (List.mem_cons_self _ _)
    obtain ⟨a, m1, hA, hps1, h10, h1le, hfr, hfr1, hpage⟩ :=
      Alloc_step m r.1 r.2 (by rw [hm]; exact hps) hoff0 (by rw [hm]; exact hoff)
        hsz hst (by rw [hm]; exact hpad)
    have hps1' : m1.page_size_ = ps := by rw [hps1, hm]
    obtain ⟨as, m2, hS, hlen, hge, hpw, hall⟩ :=
      ih m1 hps1' h10 (by rw [← hps1']; exact h1le)
        (fun q hq => hreq q (List.mem_cons_of_mem _ hq))
    have hle := le_PaddedSize r.1 r.2 hst
    refine ⟨a :: as, m2, ?_, by simp [hlen], ?_, ?_, ?_⟩
    · simp [mallocSeq, malloc, hA, hS, Result.bind]
    · intro b hb
      rcases List.mem_cons.mp hb with rfl | hb
      · exact hfr
      · have := hge b hb
        omega
    · refine List.Pairwise.cons ?_ hpw
      intro b hb
      have := hge b hb
      omega
    · refine List.Forall₂.cons ?_ hall
      rw [← hm]
      exact hpage

/-- C3: for every sequence of allocation calls (positive sizes and strides) whose padded
sizes are each at most `page_size_`, all calls return, the returned addresses are strictly
increasing, and no object spans a page boundary:
`⌊addr / page_size⌋ = ⌊(addr + size - 1) / page_size⌋` (`/` on `Int` rounds down for a
positive divisor). -/
theorem mallocSeq_increasing_no_span (m : MemoryManager) (reqs : List (Int × Int))
    (hps : 0 < m.page_size_) (hoff0 : 0 ≤ m.current_offset_)
    (hoff : m.current_offset_ ≤ m.page_size_)
    (hreq : ∀ r ∈ reqs, 0 < r.1 ∧ 0 < r.2 ∧ PaddedSize r.1 r.2 ≤ m.page_size_) :
    ∃ (addrs : List Int) (m1 : MemoryManager), mallocSeq m reqs = Result.ok addrs m1 ∧
      addrs.length = reqs.length ∧ addrs.Pairwise (fun a b => a < b) ∧
      List.Forall₂ (fun a r => a / m.page_size_ = (a + r.1 - 1) / m.page_size_)
        addrs reqs := by
  obtain ⟨addrs, m1, h1, h2, _, h4, h5⟩ :=
    mallocSeq_spec m.page_size_ hps reqs m rfl hoff0 hoff hreq
  exact ⟨addrs, m1, h1, h2, h4, h5⟩

/-- Instance of C3: page size 4096 and sizes 4000, 200, 100 (stride 1) from the fresh
manager.  The addresses are 0, 4096, 4296: the 200-byte object starts the second page and
does not bridge the first and the second. -/
theorem mallocSeq_increasing_no_span_witness :
    mallocSeq (MemoryManager.mk0 0 4096) [(4000, 1), (200, 1), (100, 1)] =
        Result.ok [0, 4096, 4296]
          { MemoryManager.mk0 0 4096 with current_page_ := 1, current_offset_ := 300 } ∧
      (4096 : Int) / 4096 = (4096 + 200 - 1) / 4096 ∧
      ∃ (addrs : List Int) (m1 : MemoryManager),
        mallocSeq (MemoryManager.mk0 0 4096) [(4000, 1), (200, 1), (100, 1)] =
          Result.ok addrs m1 ∧
        addrs.length = [((4000 : Int), (1 : Int)), (200, 1), (100, 1)].length ∧
        addrs.Pairwise (fun a b => a < b) ∧
        List.Forall₂ (fun a r => a / (MemoryManager.mk0 0 4096).page_size_ =
            (a + r.1 - 1) / (MemoryManager.mk0 0 4096).page_size_)
          addrs [((4000 : Int), (1 : Int)), (200, 1), (100, 1)] :=
  ⟨by rfl, by decide,
   mallocSeq_increasing_no_span (MemoryManager.mk0 0 4096) [(4000, 1), (200, 1), (100, 1)]
     (by decide) (by decide) (by decide) (by decide)⟩

/-! ## Handles: null address -/

/-- C12: a default-constructed handle has address -1 and a null cached pointer; `IsNULL()`
is true exactly when the address is -1; `SetNULL()` makes `IsNULL()` true for every handle;
`Reset(a)` with `a ≥ 0` makes `IsNULL()` false and `get_address()` equal to `a`. -/
theorem Ptr_null_address (h : Ptr) (a : Int) (ha : 0 ≤ a) :
    Ptr.new.address_ = -1 ∧ Ptr.new.p_ = 0 ∧ Ptr.new.IsNULL = true ∧
      (h.IsNULL = true ↔ h.address_ = -1) ∧
      h.SetNULL.IsNULL = true ∧
      (h.Reset a).IsNULL = false ∧ (h.Reset a).get_address = a := by
  refine ⟨rfl, rfl, rfl, ?_, ?_, ?_, rfl⟩
  · simp [Ptr.IsNULL]
  · simp [Ptr.IsNULL, Ptr.SetNULL]
  · simp only [Ptr.IsNULL, Ptr.Reset, decide_eq_false_iff_not]
    omega

/-- Instance of C12: a null handle reset to address 4096. -/
theorem Ptr_null_address_witness :
    (0 : Int) ≤ 4096 ∧ (Ptr.new.Reset 4096).IsNULL = false ∧
      (Ptr.new.Reset 4096).get_address = 4096 :=
  ⟨by decide, (Ptr_null_address Ptr.new 4096 (by decide)).2.2.2.2.2.1,
    (Ptr_null_address Ptr.new 4096 (by decide)).2.2.2.2.2.2⟩

/-! ## File names -/

/-- C14 (failing input): on the freshly constructed manager, whose header file is
`temp_mem.header`, `set_header_file("other.header")` leaves the header file name
`temp_mem.header`; in general the call never changes the manager. -/
theorem set_header_file_keeps_old_name :
    ((MemoryManager.mk0 0 4096).set_header_file "other.header").header_file_ =
        "temp_mem.header" ∧
      ((MemoryManager.mk0 0 4096).set_header_file "other.header").header_file_ ≠
        "other.header" ∧
      ∀ (m : MemoryManager) (h : String), m.set_header_file h = m := by
  refine ⟨by rfl, by decide, fun m h => rfl⟩

/-- The second half of C14: `set_cache_file(f)` stores `f` and keeps the header name. -/
theorem set_cache_file_spec (m : MemoryManager) (f : String) :
    (m.set_cache_file f).cache_file_ = f ∧
      (m.set_cache_file f).header_file_ = m.header_file_ :=
  ⟨rfl, rfl⟩

/-! ## Array handles -/

/-- The copy loop after `k` rounds leaves every cell outside `p1 .. p1 + k - 1` alone. -/
theorem copyLoop_frame {α : Type} (p1 p2 : Int) (cells : Int → α) :
    ∀ (k : Nat) (q : Int), (∀ i : Nat, i < k → q ≠ p1 + (i : Int)) →
      (List.range k).foldl
          (fun (c : Int → α) (i : Nat) =>
            Function.update c (p1 + (i : Int)) (c (p2 + (i : Int)))) cells q =
        cells q := by
  intro k
  induction k with
  | zero => intro q _; rfl
  | succ k ih =>
    intro q hq
    rw [List.range_succ, List.foldl_append]
    simp only [List.foldl_cons, List.foldl_nil]
    rw [Function.update_noteq (hq k (Nat.lt_succ_self k))]
    exact ih q (fun i hi => hq i (Nat.lt_succ_of_lt hi))

/-- When the destination starts at or before the source, or after its end, the copy loop
stores the original source cells in the destination. -/
theorem copyLoop_dest {α : Type} (p1 p2 : Int) (cells : Int → α) (N : Nat)
    (hfw : p1 ≤ p2 ∨ p2 + (N : Int) ≤ p1) :
    ∀ (k : Nat), k ≤ N → ∀ i : Nat, i < k →
      (List.range k).foldl
          (fun (c : Int → α) (i : Nat) =>
            Function.update c (p1 + (i : Int)) (c (p2 + (i : Int)))) cells
          (p1 + (i : Int)) =
        cells (p2 + (i : Int)) := by
  intro k
  induction k with
  | zero => intro _ i hi; omega
  | succ k ih =>
    intro hk i hi
    rw [List.range_succ, List.foldl_append]
    simp only [List.foldl_cons, List.foldl_nil]
    by_cases hik : i = k
    · subst hik
      rw [Function.update_same]
      apply copyLoop_frame
      intro m hm
      omega
    · have hne : p1 + (i : Int) ≠ p1 + (k : Int) := by omega
      rw [Function.update_noteq hne]
      exact ih (by omega) i (by omega)

/-- C11 (as stated, refuted): cells 0, 1, 2 hold 10, 20, 30; the destination handle has
address 0, the source handle address 1, the length is 2.  After `Copy` the source element 0
has changed from 20 to 30 and differs from the destination element 0, which is 20. -/
theorem ArrayPtr_Copy_overlap :
    ∃ h3 : Heap Unit Int,
      ArrayPtr.Copy (flatAccess 0) (Ptr.new.Reset 0) (Ptr.new.Reset 1) 2
          { allocator_ := (), cells := cells123 } = Result.ok () h3 ∧
        cells123 (1 + 0) = 20 ∧ h3.cells (1 + 0) = 30 ∧ h3.cells (0 + 0) = 20 := by
  refine ⟨_, rfl, by decide, by decide, by decide⟩

/-- C11 (amended): when `Access` answers `p1` for the destination and `p2` for the source
and the two ranges of `n` cells do not overlap (or are the same range), `Copy` returns,
element `i` of the destination equals element `i` of the source for `0 ≤ i < n`, the
source elements are unchanged, and every cell outside the destination range (so every
destination element of index `≥ n`) is unchanged. -/
theorem ArrayPtr_Copy_disjoint {σ α : Type}
    (Access : Heap σ α → Int → Result (Heap σ α) Int) (this other : Ptr) (n p1 p2 : Int)
    (h h1 h2 : Heap σ α)
    (hA1 : Access h this.address_ = Result.ok p1 h1)
    (hA2 : Access h1 other.address_ = Result.ok p2 h2)
    (hsep : p1 + n ≤ p2 ∨ p2 + n ≤ p1 ∨ p1 = p2) :
    ∃ h3 : Heap σ α, ArrayPtr.Copy Access this other n h = Result.ok () h3 ∧
      h3.allocator_ = h2.allocator_ ∧
      (∀ i : Int, 0 ≤ i → i < n →
        h3.cells (p1 + i) = h3.cells (p2 + i) ∧ h3.cells (p2 + i) = h2.cells (p2 + i)) ∧
      (∀ q : Int, q < p1 ∨ p1 + n ≤ q → h3.cells q = h2.cells q) := by
  refine ⟨{ h2 with cells := ArrayPtr.copyLoop p1 p2 n h2.cells }, ?_, rfl, ?_, ?_⟩
  · simp [ArrayPtr.Copy, hA1, hA2, Result.bind]
  · intro i hi0 hin
    have hn : ((n.toNat : Nat) : Int) = n := Int.toNat_of_nonneg (by omega)
    have hi : ((i.toNat : Nat) : Int) = i := Int.toNat_of_nonneg hi0
    have hlt : i.toNat < n.toNat := by omega
    have hdest : ArrayPtr.copyLoop p1 p2 n h2.cells (p1 + i) = h2.cells (p2 + i) := by
      have hfw : p1 ≤ p2 ∨ p2 + ((n.toNat : Nat) : Int) ≤ p1 := by omega
      have := copyLoop_dest p1 p2 h2.cells n.toNat hfw n.toNat le_rfl i.toNat hlt
      rw [hi] at this
      exact this
    have hsrc : ArrayPtr.copyLoop p1 p2 n h2.cells (p2 + i) = h2.cells (p2 + i) := by
      rcases hsep with hs | hs | hs
      · exact copyLoop_frame p1 p2 h2.cells n.toNat (p2 + i) (fun m hm => by omega)
      · exact copyLoop_frame p1 p2 h2.cells n.toNat (p2 + i) (fun m hm => by omega)
      · rw [← hs] at hdest ⊢
        exact hdest
    exact ⟨by simp only [hdest, hsrc], hsrc⟩
  · intro q hq
    exact copyLoop_frame p1 p2 h2.cells n.toNat q (fun m hm => by omega)

/-- Instance of the amended C11: destination at address 0, source at address 2, one
element. -/
theorem ArrayPtr_Copy_disjoint_witness :
    (0 : Int) + 1 ≤ 2 ∧
      ∃ h3 : Heap Unit Int,
        ArrayPtr.Copy (flatAccess 0) (Ptr.new.Reset 0) (Ptr.new.Reset 2) 1
            { allocator_ := (), cells := cells123 } = Result.ok () h3 ∧
          h3.allocator_ = () ∧
          (∀ i : Int, 0 ≤ i → i < 1 →
            h3.cells (0 + i) = h3.cells (2 + i) ∧ h3.cells (2 + i) = cells123 (2 + i)) ∧
          (∀ q : Int, q < 0 ∨ 0 + 1 ≤ q → h3.cells q = cells123 q) :=
  ⟨by decide,
   ArrayPtr_Copy_disjoint (flatAccess 0) (Ptr.new.Reset 0) (Ptr.new.Reset 2) 1 0 2
     { allocator_ := (), cells := cells123 } { allocator_ := (), cells := cells123 }
     { allocator_ := (), cells := cells123 } rfl rfl (Or.inl (by decide))⟩

end tpiemm

namespace SeriesExpansion

/-! ## Hermite map of `TransFarToLocal` -/

/-- For every dimension and every resulting order at least 1, the loop of
`TransFarToLocal` calls `hermite_map.set(0, limit, ·)`: column `limit`, one past the last
column of the map. -/
theorem TransFarToLocal_writes_limit (dimension order_ : Int) (hd : 1 ≤ dimension)
    (ho : 1 ≤ order_) :
    ((0 : Int), TransFarToLocal_limit order_) ∈ TransFarToLocal_setCalls dimension order_ := by
  unfold TransFarToLocal_setCalls
  rw [List.mem_flatMap]
  refine ⟨0, List.mem_range.mpr (by omega), ?_⟩
  rw [List.mem_map]
  refine ⟨TransFarToLocal_limit order_, ?_, by simp⟩
  unfold TransFarToLocal_setCols
  have hpos : order_ > 0 := by omega
  simp only [if_pos hpos, TransFarToLocal_limit, List.mem_append, List.mem_singleton,
    List.mem_map, List.mem_range'_1]
  right
  right
  refine ⟨(2 * order_ + 1).toNat - 1, ⟨by omega, by omega⟩, by omega⟩

/-- The sibling loop of `ComputeLocalCoeffs` and `EvaluateFarField` stays inside its map of
`order + 1` columns. -/
theorem ComputeLocalCoeffs_setCols_in_bounds (order : Int) (ho : 0 ≤ order) :
    ∀ c ∈ ComputeLocalCoeffs_setCols order, 0 ≤ c ∧ c < order + 1 := by
  intro c hc
  unfold ComputeLocalCoeffs_setCols at hc
  by_cases h0 : order > 0
  · by_cases h1 : order > 1
    · simp only [if_pos h0, if_pos h1, List.mem_append, List.mem_singleton, List.mem_map,
        List.mem_range'_1] at hc
      rcases hc with rfl | rfl | ⟨k, ⟨hk1, hk2⟩, rfl⟩ <;> omega
    · simp only [if_pos h0, if_neg h1, List.mem_append, List.mem_singleton,
        List.not_mem_nil, or_false] at hc
      rcases hc with rfl | rfl <;> omega
  · simp only [if_neg h0, List.append_nil, List.mem_singleton] at hc
    omega

/-- C13 (failing input): a local expansion of order 0 in dimension 1 receives a far-field
expansion of order 1.  The resulting `order_` is 1, `hermite_map` gets `limit = 3` columns
(0, 1, 2), and the calls are `set(0, 0)`, `set(0, 1)`, `set(0, 2)`, `set(0, 3)`: the last
one, made for `k = limit - 1`, addresses column 3, which is not below `limit`. -/
theorem TransFarToLocal_set_past_limit :
    TransFarToLocal_order 0 1 = 1 ∧
      TransFarToLocal_limit (TransFarToLocal_order 0 1) = 3 ∧
      TransFarToLocal_setCalls 1 (TransFarToLocal_order 0 1) =
        [(0, 0), (0, 1), (0, 2), (0, 3)] ∧
      ¬ ∀ call ∈ TransFarToLocal_setCalls 1 (TransFarToLocal_order 0 1),
          call.2 < TransFarToLocal_limit (TransFarToLocal_order 0 1) := by
  refine ⟨by decide, by decide, by decide, ?_⟩
  intro h
  have := h (0, 3) (by decide)
  revert this
  decide

/-! ## Monomial enumeration loop -/

/-- Reading back an entry of `tmp` that was just assigned. -/
theorem tmp_getD_set_same (l : List ℚ) (i : Nat) (v : ℚ) (h : i < l.length) :
    (l.set i v).getD i 0 = v := by
  simp [List.getD_eq_getElem?_getD, List.getElem?_set, h]

/-- Reading another entry of `tmp` than the one assigned. -/
theorem tmp_getD_set_other (l : List ℚ) (i j : Nat) (v : ℚ) (h : i ≠ j) :
    (l.set i v).getD j 0 = l.getD j 0 := by
  simp [List.getD_eq_getElem?_getD, List.getElem?_set, h]

/-- One execution of the loop body with `j < tail` keeps the invariant of the trace and of
the array. -/
theorem monomialInner_traceOk (dim : Nat) (x : List ℚ) (i : Nat) (s : MonomialLoop)
    (j : Nat) (hi : i < dim) (hj : j < s.tail) (hok : s.TraceOk dim x) :
    (monomialInner x i s j).TraceOk dim x := by
  obtain ⟨a, b, c, d⟩ := hok
  refine ⟨?_, ?_, ?_, ?_⟩
  · simp only [monomialInner, MonomialLoop.assignTmp]
    omega
  · simp only [monomialInner, MonomialLoop.assignTmp]
    omega
  · simp only [monomialInner, MonomialLoop.assignTmp, List.map_append, List.map_cons,
      List.map_nil, c]
    have e1 : s.t + 1 - 1 = (s.t - 1) + 1 := by omega
    rw [e1, List.range'_concat]
    have e2 : 1 + 1 * (s.t - 1) = s.t := by omega
    rw [e2]
  · intro e he
    simp only [monomialInner, MonomialLoop.assignTmp, List.mem_append,
      List.mem_singleton] at he
    simp only [monomialInner, MonomialLoop.assignTmp, List.length_set]
    rcases he with he | rfl
    · obtain ⟨d1, d2, d3, d4⟩ := d e he
      refine ⟨d1, by omega, d3, ?_⟩
      intro hlen
      rw [tmp_getD_set_other _ _ _ _ (by omega), tmp_getD_set_other _ _ _ _ (by omega)]
      exact d4 hlen
    · refine ⟨by simp only; omega, by simp only; omega, hi, ?_⟩
      intro hlen
      simp only at hlen ⊢
      rw [tmp_getD_set_same _ _ _ hlen, tmp_getD_set_other _ _ _ _ (by omega)]

/-- Effect of the innermost loop when it runs `n` times from `j = head` with
`n ≤ tail - head`: the counters, the length of `tmp`, entry 0, the entries from the final
`t` on, and the invariant. -/
theorem monomialInner_fold (dim : Nat) (x : List ℚ) (i : Nat) :
    ∀ (n head : Nat) (s : MonomialLoop), n ≤ s.tail - head →
      ((List.range' head n).foldl (monomialInner x i) s).t = s.t + n ∧
      ((List.range' head n).foldl (monomialInner x i) s).heads = s.heads ∧
      ((List.range' head n).foldl (monomialInner x i) s).tail = s.tail ∧
      ((List.range' head n).foldl (monomialInner x i) s).tmp.length = s.tmp.length ∧
      (1 ≤ s.t → ((List.range' head n).foldl (monomialInner x i) s).tmp.getD 0 0 =
        s.tmp.getD 0 0) ∧
      (i < dim → s.TraceOk dim x →
        ((List.range' head n).foldl (monomialInner x i) s).TraceOk dim x) ∧
      (∀ p, s.t + n ≤ p →
        ((List.range' head n).foldl (monomialInner x i) s).tmp[p]? = s.tmp[p]?) := by
  intro n
  induction n with
  | zero =>
    intro head s _
    simp
  | succ n ih =>
    intro head s hn
    rw [List.range'_succ, List.foldl_cons]
    have hs1 : (monomialInner x i s head).tail = s.tail := rfl
    have hs2 : (monomialInner x i s head).t = s.t + 1 := rfl
    have hs3 : (monomialInner x i s head).tmp =
        s.tmp.set s.t (s.tmp.getD head 0 * x.getD i 0) := rfl
    obtain ⟨h1, h2, h3, h4, h5, h6, h7⟩ :=
      ih (head + 1) (monomialInner x i s head) (by rw [hs1]; omega)
    refine ⟨?_, ?_, ?_, ?_, ?_, ?_, ?_⟩
    · rw [h1, hs2]
      omega
    · rw [h2]
      rfl
    · rw [h3, hs1]
    · rw [h4, hs3, List.length_set]
    · intro ht
      rw [h5 (by rw [hs2]; omega), hs3, tmp_getD_set_other _ _ _ _ (by omega)]
    · intro hi hok
      exact h6 hi (monomialInner_traceOk dim x i s head hi (by omega) hok)
    · intro p hp
      rw [h7 p (by rw [hs2]; omega), hs3, List.getElem?_set_ne (by omega)]

/-- Effect of one round of the loop over `i`. -/
theorem monomialDim_fields (dim : Nat) (x : List ℚ) (s : MonomialLoop) (i : Nat) :
    (monomialDim x s i).t = s.t + (s.tail - s.heads.getD i 0) ∧
      (monomialDim x s i).heads = s.heads.set i s.t ∧
      (monomialDim x s i).tail = s.tail ∧
      (monomialDim x s i).tmp.length = s.tmp.length ∧
      (1 ≤ s.t → (monomialDim x s i).tmp.getD 0 0 = s.tmp.getD 0 0) ∧
      (i < dim → s.TraceOk dim x → (monomialDim x s i).TraceOk dim x) ∧
      (∀ p, (monomialDim x s i).t ≤ p → (monomialDim x s i).tmp[p]? = s.tmp[p]?) := by
  unfold monomialDim
  obtain ⟨h1, h2, h3, h4, h5, h6, h7⟩ :=
    monomialInner_fold dim x i (s.tail - s.heads.getD i 0) (s.heads.getD i 0)
      { s with heads := s.heads.set i s.t } le_rfl
  refine ⟨h1, h2, h3, h4, h5, h6, ?_⟩
  intro p hp
  rw [h1] at hp
  exact h7 p hp

/-- The loop over `i` keeps `tail`, the length of `tmp`, `tmp[0]`, the entries from the
final `t` on and the invariant, and never lowers `t`. -/
theorem monomialDim_fold (dim : Nat) (x : List ℚ) :
    ∀ (l : List Nat) (s : MonomialLoop), (∀ i ∈ l, i < dim) →
      (l.foldl (monomialDim x) s).tail = s.tail ∧ s.t ≤ (l.foldl (monomialDim x) s).t ∧
      (l.foldl (monomialDim x) s).tmp.length = s.tmp.length ∧
      (1 ≤ s.t → (l.foldl (monomialDim x) s).tmp.getD 0 0 = s.tmp.getD 0 0) ∧
      (s.TraceOk dim x → (l.foldl (monomialDim x) s).TraceOk dim x) ∧
      (∀ p, (l.foldl (monomialDim x) s).t ≤ p →
        (l.foldl (monomialDim x) s).tmp[p]? = s.tmp[p]?) := by
  intro l
  induction l with
  | nil => intro s _; simp
  | cons i tl ih =>
    intro s hl
    rw [List.foldl_cons]
    obtain ⟨a1, a2, a3, a4, a5, a6, a7⟩ := monomialDim_fields dim x s i
    obtain ⟨b1, b2, b3, b4, b5, b6⟩ :=
      ih (monomialDim x s i) (fun k hk => hl k (List.mem_cons_of_mem _ hk))
    have hi : i < dim := hl i (List.mem_cons_self _ _)
    refine ⟨by rw [b1, a3], by omega, by rw [b3, a4], ?_, fun h => b5 (a6 hi h), ?_⟩
    · intro ht
      rw [b4 (by omega), a5 ht]
    · intro p hp
      rw [b6 p hp, a7 p (by omega)]

/-- One round of the loop over `k` keeps the length of `tmp`, `tmp[0]`, the invariant and
the entries from the final `t` on, and never lowers `t`. -/
theorem monomialOrder_keeps (dim : Nat) (x : List ℚ) (s : MonomialLoop) (k : Nat) :
    (monomialOrder dim x s k).tmp.length = s.tmp.length ∧
      (1 ≤ s.t → 1 ≤ (monomialOrder dim x s k).t ∧
        (monomialOrder dim x s k).tmp.getD 0 0 = s.tmp.getD 0 0) ∧
      (s.TraceOk dim x → (monomialOrder dim x s k).TraceOk dim x) ∧
      s.t ≤ (monomialOrder dim x s k).t ∧
      (∀ p, (monomialOrder dim x s k).t ≤ p →
        (monomialOrder dim x s k).tmp[p]? = s.tmp[p]?) := by
  obtain ⟨b1, b2, b3, b4, b5, b6⟩ :=
    monomialDim_fold dim x (List.range dim) s (fun i hi => List.mem_range.mp hi)
  unfold monomialOrder
  refine ⟨b3, fun ht => ⟨?_, b4 ht⟩, ?_, b2, b6⟩
  · simp only
    omega
  · intro h
    obtain ⟨c1, c2, c3, c4⟩ := b5 h
    exact ⟨c1, le_rfl, c3, c4⟩

/-- The whole loop over `k` keeps the length of `tmp`, `tmp[0]`, the invariant and the
entries from the final `t` on. -/
theorem monomialOrder_fold (dim : Nat) (x : List ℚ) :
    ∀ (l : List Nat) (s : MonomialLoop),
      (l.foldl (monomialOrder dim x) s).tmp.length = s.tmp.length ∧
      (1 ≤ s.t → 1 ≤ (l.foldl (monomialOrder dim x) s).t ∧
        (l.foldl (monomialOrder dim x) s).tmp.getD 0 0 = s.tmp.getD 0 0) ∧
      (s.TraceOk dim x → (l.foldl (monomialOrder dim x) s).TraceOk dim x) ∧
      s.t ≤ (l.foldl (monomialOrder dim x) s).t ∧
      (∀ p, (l.foldl (monomialOrder dim x) s).t ≤ p →
        (l.foldl (monomialOrder dim x) s).tmp[p]? = s.tmp[p]?) := by
  intro l
  induction l with
  | nil => intro s; simp
  | cons k tl ih =>
    intro s
    rw [List.foldl_cons]
    obtain ⟨a1, a2, a3, a4, a5⟩ := monomialOrder_keeps dim x s k
    obtain ⟨b1, b2, b3, b4, b5⟩ := ih (monomialOrder dim x s k)
    refine ⟨by rw [b1, a1], ?_, fun h => b3 (a3 h), by omega, ?_⟩
    · intro ht
      obtain ⟨c1, c2⟩ := a2 ht
      obtain ⟨d1, d2⟩ := b2 c1
      exact ⟨d1, by rw [d2, c2]⟩
    · intro p hp
      rw [b5 p hp, a5 p (by omega)]

/-- The innermost loop treats alike two runs that differ only in the content of `tmp`. -/
theorem monomialInner_fold_same (x : List ℚ) (i : Nat) :
    ∀ (l : List Nat) (s s' : MonomialLoop), s.SameControl s' →
      (l.foldl (monomialInner x i) s).SameControl (l.foldl (monomialInner x i) s') := by
  intro l
  induction l with
  | nil => intro s s' h; exact h
  | cons j tl ih =>
    intro s s' h
    rw [List.foldl_cons, List.foldl_cons]
    apply ih
    obtain ⟨h1, h2, h3, h4⟩ := h
    refine ⟨h1, ?_, h3, ?_⟩
    · simp only [monomialInner, MonomialLoop.assignTmp, h2]
    · simp only [monomialInner, MonomialLoop.assignTmp, h2, h4]

/-- The loop over `i` treats alike two runs that differ only in the content of `tmp`. -/
theorem monomialDim_fold_same (x : List ℚ) :
    ∀ (l : List Nat) (s s' : MonomialLoop), s.SameControl s' →
      (l.foldl (monomialDim x) s).SameControl (l.foldl (monomialDim x) s') := by
  intro l
  induction l with
  | nil => intro s s' h; exact h
  | cons i tl ih =>
    intro s s' h
    rw [List.foldl_cons, List.foldl_cons]
    apply ih
    obtain ⟨h1, h2, h3, h4⟩ := h
    unfold monomialDim
    simp only [h1, h2, h3]
    exact monomialInner_fold_same x i _ _ _ ⟨rfl, rfl, rfl, h4⟩

/-- The loop over `k` treats alike two runs that differ only in the content of `tmp`. -/
theorem monomialOrder_fold_same (dim : Nat) (x : List ℚ) :
    ∀ (l : List Nat) (s s' : MonomialLoop), s.SameControl s' →
      (l.foldl (monomialOrder dim x) s).SameControl (l.foldl (monomialOrder dim x) s') := by
  intro l
  induction l with
  | nil => intro s s' h; exact h
  | cons k tl ih =>
    intro s s' h
    rw [List.foldl_cons, List.foldl_cons]
    apply ih
    obtain ⟨h1, h2, h3, h4⟩ := monomialDim_fold_same x (List.range dim) s s' h
    exact ⟨h1, h2, h2, h4⟩

/-- Reading back the entry just written. -/
theorem getD_set_same (l : List Nat) (i v : Nat) (h : i < l.length) :
    (l.set i v).getD i 0 = v := by
  simp [List.getD_eq_getElem?_getD, List.getElem?_set, h]

/-- Reading another entry than the one written. -/
theorem getD_set_other (l : List Nat) (i j v : Nat) (h : i ≠ j) :
    (l.set i v).getD j 0 = l.getD j 0 := by
  simp [List.getD_eq_getElem?_getD, List.getElem?_set, h]

/-- Counters in the middle of round `c + 1` of the loop over `k`, after the first `i`
variables were handled. -/
theorem monomialDim_count (dim c : Nat) (x : List ℚ) (s0 : MonomialLoop)
    (h0 : s0.CountOk dim c) :
    ∀ i, i ≤ dim →
      ((List.range i).foldl (monomialDim x) s0).tail = s0.tail ∧
      ((List.range i).foldl (monomialDim x) s0).heads.length = s0.heads.length ∧
      ((List.range i).foldl (monomialDim x) s0).t + Nat.multichoose (dim - i) (c + 1) =
        s0.tail + Nat.multichoose dim (c + 1) ∧
      (∀ j, j < i →
        ((List.range i).foldl (monomialDim x) s0).heads.getD j 0 +
          Nat.multichoose (dim - j) (c + 1) = s0.tail + Nat.multichoose dim (c + 1)) ∧
      (∀ j, i ≤ j → j < dim →
        ((List.range i).foldl (monomialDim x) s0).heads.getD j 0 +
          Nat.multichoose (dim - j) c = s0.tail) := by
  obtain ⟨ht, htail, hlen, hheads⟩ := h0
  intro i
  induction i with
  | zero =>
    intro _
    refine ⟨rfl, rfl, ?_, ?_, ?_⟩
    · simp only [List.range_zero, List.foldl_nil, Nat.sub_zero]
      omega
    · intro j hj
      omega
    · intro j _ hj
      exact hheads j hj
  | succ i ih =>
    intro hi
    obtain ⟨a1, a2, a3, a4, a5⟩ := ih (by omega)
    rw [List.range_succ, List.foldl_append]
    simp only [List.foldl_cons, List.foldl_nil]
    obtain ⟨b1, b2, b3, _, _, _⟩ :=
      monomialDim_fields dim x ((List.range i).foldl (monomialDim x) s0) i
    have hhead := a5 i le_rfl (by omega)
    have hrec : Nat.multichoose (dim - i) (c + 1) =
        Nat.multichoose (dim - (i + 1)) (c + 1) + Nat.multichoose (dim - i) c := by
      have h := Nat.multichoose_succ_succ (dim - (i + 1)) c
      have e : dim - (i + 1) + 1 = dim - i := by omega
      rw [e] at h
      exact h
    refine ⟨by rw [b3, a1], by rw [b2, List.length_set, a2], ?_, ?_, ?_⟩
    · rw [b1, a1]
      omega
    · intro j hj
      rw [b2]
      by_cases hji : j = i
      · subst hji
        rw [getD_set_same _ _ _ (by omega)]
        exact a3
      · rw [getD_set_other _ _ _ _ (fun h => hji h.symm)]
        exact a4 j (by omega)
    · intro j hj1 hj2
      rw [b2, getD_set_other _ _ _ _ (by omega)]
      exact a5 j (by omega) hj2

/-- One round of the loop over `k` takes the counter invariant from `c` to `c + 1`. -/
theorem monomialOrder_count (dim c : Nat) (x : List ℚ) (s0 : MonomialLoop) (k : Nat)
    (h0 : s0.CountOk dim c) : (monomialOrder dim x s0 k).CountOk dim (c + 1) := by
  obtain ⟨a1, a2, a3, a4, _⟩ := monomialDim_count dim c x s0 h0 dim le_rfl
  obtain ⟨ht, htail, hlen, _⟩ := h0
  have hz : Nat.multichoose (dim - dim) (c + 1) = 0 := by
    rw [Nat.sub_self, Nat.multichoose_zero_succ]
  have hrec := Nat.multichoose_succ_succ dim c
  unfold monomialOrder
  refine ⟨?_, rfl, ?_, ?_⟩
  · simp only
    omega
  · simp only
    omega
  · intro i hi
    simp only
    have := a4 i hi
    omega

/-- After the rounds listed in `l` the counter invariant has advanced by their number. -/
theorem monomialOrder_fold_count (dim : Nat) (x : List ℚ) :
    ∀ (l : List Nat) (c : Nat) (s : MonomialLoop), s.CountOk dim c →
      (l.foldl (monomialOrder dim x) s).CountOk dim (c + l.length) := by
  intro l
  induction l with
  | nil => intro c s h; exact h
  | cons k tl ih =>
    intro c s h
    rw [List.foldl_cons, List.length_cons]
    have := ih (c + 1) _ (monomialOrder_count dim c x s k h)
    have e : c + 1 + tl.length = c + (tl.length + 1) := by omega
    rw [e] at this
    exact this

/-- C15: for every dimension `dim` and every order, the heads/tail loop assigns `tmp[t]`
exactly once for each `t = 1, 2, …, C(dim + order, dim) - 1`, in increasing order; each
assignment reads an entry `tmp[j]` with `j < t` and multiplies it by a coordinate `x[i]`,
`i < dim`, and the array holds that product at the end; the loop ends with
`t = C(dim + order, dim)`.  On the array itself: `tmp[0]` is 1, no entry of index at or
beyond that count is changed, and the entries below it do not depend on what `tmp` held
before the loop, so only entries written by the loop (or `tmp[0]`) were read. -/
theorem monomialLoop_enumerates (dim order : Nat) (x tmp : List ℚ) :
    (monomialLoop dim order x tmp).t = Nat.choose (dim + order) dim ∧
      (monomialLoop dim order x tmp).trace.map TmpAssign.written =
        List.range' 1 (Nat.choose (dim + order) dim - 1) ∧
      (∀ e ∈ (monomialLoop dim order x tmp).trace,
        e.read < e.written ∧ e.written < Nat.choose (dim + order) dim ∧ e.coord < dim ∧
        (e.written < tmp.length →
          (monomialLoop dim order x tmp).tmp.getD e.written 0 =
            (monomialLoop dim order x tmp).tmp.getD e.read 0 * x.getD e.coord 0)) ∧
      (monomialLoop dim order x tmp).tmp.length = tmp.length ∧
      (1 ≤ tmp.length → (monomialLoop dim order x tmp).tmp.getD 0 0 = 1) ∧
      (∀ p, Nat.choose (dim + order) dim ≤ p →
        (monomialLoop dim order x tmp).tmp[p]? = tmp[p]?) ∧
      (∀ tmp' : List ℚ, tmp'.length = tmp.length →
        ∀ p, p < Nat.choose (dim + order) dim →
          (monomialLoop dim order x tmp).tmp.getD p 0 =
            (monomialLoop dim order x tmp').tmp.getD p 0) := by
  -- facts that hold for every initial content of `tmp`
  have key : ∀ tmp0 : List ℚ,
      (monomialLoop dim order x tmp0).t = Nat.choose (dim + order) dim ∧
      (monomialLoop dim order x tmp0).TraceOk dim x ∧
      (monomialLoop dim order x tmp0).tmp.length = tmp0.length ∧
      (1 ≤ tmp0.length → (monomialLoop dim order x tmp0).tmp.getD 0 0 = 1) ∧
      (∀ p, Nat.choose (dim + order) dim ≤ p →
        (monomialLoop dim order x tmp0).tmp[p]? = tmp0[p]?) := by
    intro tmp0
    have hinitT : MonomialLoop.TraceOk dim x
        { heads := List.replicate dim 0 ++ [MAXINT], tmp := tmp0.set 0 1, t := 1, tail := 1,
          trace := [] } := by
      refine ⟨le_rfl, le_rfl, ?_, ?_⟩
      · simp
      · intro e he
        simp at he
    have hinitC : MonomialLoop.CountOk dim 0
        { heads := List.replicate dim 0 ++ [MAXINT], tmp := tmp0.set 0 1, t := 1, tail := 1,
          trace := [] } := by
      refine ⟨?_, rfl, ?_, ?_⟩
      · simp [Nat.multichoose_zero_right]
      · simp
      · intro i hi
        simp only [Nat.multichoose_zero_right, List.getD_eq_getElem?_getD]
        rw [List.getElem?_append_left (by simpa using hi)]
        simp [List.getElem?_replicate, hi]
    obtain ⟨hlen, h0, hT, _, hframe⟩ := monomialOrder_fold dim x (List.range' 1 order)
      { heads := List.replicate dim 0 ++ [MAXINT], tmp := tmp0.set 0 1, t := 1, tail := 1,
        trace := [] }
    have hC := monomialOrder_fold_count dim x (List.range' 1 order) 0 _ hinitC
    obtain ⟨c1, _, _, _⟩ := hC
    have hfinal : (monomialLoop dim order x tmp0).t = Nat.choose (dim + order) dim := by
      unfold monomialLoop
      rw [c1, List.length_range', Nat.zero_add, Nat.multichoose_eq]
      have e : dim + 1 + order - 1 = dim + order := by omega
      rw [e, Nat.add_comm dim order, Nat.choose_symm_add]
    have hpos : 1 ≤ Nat.choose (dim + order) dim :=
      Nat.choose_pos (Nat.le_add_right dim order)
    refine ⟨hfinal, hT hinitT, ?_, ?_, ?_⟩
    · unfold monomialLoop
      rw [hlen, List.length_set]
    · intro h1
      unfold monomialLoop
      rw [(h0 le_rfl).2]
      exact tmp_getD_set_same tmp0 0 1 (by omega)
    · intro p hp
      have hp' : (monomialLoop dim order x tmp0).t ≤ p := by rw [hfinal]; exact hp
      unfold monomialLoop at hp' ⊢
      rw [hframe p hp', List.getElem?_set_ne (by omega)]
  obtain ⟨hfinal, ⟨_, _, t3, t4⟩, hlen, hzero, hframe⟩ := key tmp
  rw [hfinal] at t3
  refine ⟨hfinal, t3, ?_, hlen, hzero, hframe, ?_⟩
  · intro e he
    obtain ⟨d1, d2, d3, d4⟩ := t4 e he
    rw [hfinal] at d2
    rw [hlen] at d4
    exact ⟨d1, d2, d3, d4⟩
  · intro tmp' hl'
    obtain ⟨hfinal', ⟨_, _, _, t4'⟩, hlen', hzero', _⟩ := key tmp'
    have hsame : (monomialLoop dim order x tmp).SameControl (monomialLoop dim order x tmp') :=
      monomialOrder_fold_same dim x (List.range' 1 order) _ _ ⟨rfl, rfl, rfl, rfl⟩
    have htrace := hsame.2.2.2
    intro p
    induction p using Nat.strong_induction_on with
    | _ p ih =>
      intro hp
      by_cases hin : p < tmp.length
      · by_cases hp0 : p = 0
        · subst hp0
          rw [hzero (by omega), hzero' (by omega)]
        · have hmem : p ∈ (monomialLoop dim order x tmp).trace.map TmpAssign.written := by
            rw [t3, List.mem_range'_1]
            omega
          obtain ⟨e, he, rfl⟩ := List.mem_map.mp hmem
          obtain ⟨d1, _, _, d4⟩ := t4 e he
          obtain ⟨_, _, _, d4'⟩ := t4' e (by rw [← htrace]; exact he)
          rw [d4 (by rw [hlen]; exact hin), d4' (by rw [hlen', hl']; exact hin),
            ih e.read d1 (by omega)]
      · have h1 : (monomialLoop dim order x tmp).tmp.length ≤ p := by rw [hlen]; omega
        have h2 : (monomialLoop dim order x tmp').tmp.length ≤ p := by
          rw [hlen', hl']; omega
        rw [List.getD_eq_getElem?_getD, List.getD_eq_getElem?_getD,
          List.getElem?_eq_none_iff.mpr h1, List.getElem?_eq_none_iff.mpr h2]

/-- Instance of C15: dimension 2, order 2, coordinates 2 and 3, on an array holding six
times the value 7: the loop ends with `t = 6`, the assignments are `tmp[1] = tmp[0] * x[0]`,
`tmp[2] = tmp[0] * x[1]`, `tmp[3] = tmp[1] * x[0]`, `tmp[4] = tmp[2] * x[0]`,
`tmp[5] = tmp[2] * x[1]`, and the array ends as 1, 2, 3, 4, 6, 9. -/
theorem monomialLoop_enumerates_witness :
    (monomialLoop 2 2 [2, 3] (List.replicate 6 7)).t = Nat.choose (2 + 2) 2 ∧
      (monomialLoop 2 2 [2, 3] (List.replicate 6 7)).trace =
        [{ written := 1, read := 0, coord := 0 }, { written := 2, read := 0, coord := 1 },
          { written := 3, read := 1, coord := 0 }, { written := 4, read := 2, coord := 0 },
          { written := 5, read := 2, coord := 1 }] ∧
      (monomialLoop 2 2 [2, 3] (List.replicate 6 7)).tmp = [1, 2, 3, 4, 6, 9] :=
  ⟨(monomialLoop_enumerates 2 2 [2, 3] (List.replicate 6 7)).1, by decide, by
    simp only [monomialLoop, monomialOrder, monomialDim, monomialInner,
      MonomialLoop.assignTmp, MAXINT, List.range', List.range_succ, List.range_zero,
      List.replicate, List.foldl_cons, List.foldl_nil, List.nil_append, List.cons_append,
      List.getD_cons_zero, List.getD_cons_succ, List.set_cons_zero, List.set_cons_succ,
      Nat.sub_zero, Nat.sub_self, Nat.reduceSub, Nat.reduceAdd]
    norm_num⟩

/-! ## Far-field coefficients -/

/-- Entry 0 of a non-empty list, read with a default. -/
theorem getElem?_zero_of_getD (l : List ℚ) (v : ℚ) (h : 1 ≤ l.length)
    (hv : l.getD 0 0 = v) : l[0]? = some v := by
  cases l with
  | nil => simp at h
  | cons a tl => simpa using hv

/-- Entry 0 of a non-empty list after it was assigned. -/
theorem getD_set_zero (c : List ℚ) (v : ℚ) (h : 1 ≤ c.length) :
    (c.set 0 v).getD 0 0 = v := by
  cases c with
  | nil => simp at h
  | cons a tl => simp

/-- A loop that only assigns entries of index at least 1 leaves entry 0 and the length
alone. -/
theorem fold_set_keeps_zero (g : List ℚ → Nat → ℚ) :
    ∀ (l : List Nat) (c : List ℚ), (∀ i ∈ l, 1 ≤ i) →
      (l.foldl (fun (c : List ℚ) (i : Nat) => c.set i (g c i)) c).getD 0 0 = c.getD 0 0 ∧
      (l.foldl (fun (c : List ℚ) (i : Nat) => c.set i (g c i)) c).length = c.length := by
  intro l
  induction l with
  | nil => intro c _; simp
  | cons i tl ih =>
    intro c hl
    rw [List.foldl_cons]
    obtain ⟨h1, h2⟩ := ih (c.set i (g c i)) (fun k hk => hl k (List.mem_cons_of_mem _ hk))
    have hi : 1 ≤ i := hl i (List.mem_cons_self _ _)
    refine ⟨?_, by rw [h2, List.length_set]⟩
    rw [h1, List.getD_eq_getElem?_getD, List.getD_eq_getElem?_getD,
      List.getElem?_set_ne (by omega)]

/-- The tally loop `coeffs_[i] += w * tmp[i]`, run over at least one index on a
non-empty `coeffs_`, adds `w * tmp[0]` to entry 0. -/
theorem tally_zero (w : ℚ) (tmp c : List ℚ) (n : Nat) (hn : 1 ≤ n) (hc : 1 ≤ c.length) :
    ((List.range n).foldl
        (fun (c : List ℚ) (i : Nat) => c.set i (c.getD i 0 + w * tmp.getD i 0)) c).getD 0 0 =
      c.getD 0 0 + w * tmp.getD 0 0 ∧
    ((List.range n).foldl
        (fun (c : List ℚ) (i : Nat) => c.set i (c.getD i 0 + w * tmp.getD i 0)) c).length =
      c.length := by
  obtain ⟨m, rfl⟩ : ∃ m, n = m + 1 := ⟨n - 1, by omega⟩
  rw [List.range_eq_range', List.range'_succ, List.foldl_cons]
  obtain ⟨h1, h2⟩ := fold_set_keeps_zero (fun c i => c.getD i 0 + w * tmp.getD i 0)
    (List.range' (0 + 1) m) (c.set 0 (c.getD 0 0 + w * tmp.getD 0 0))
    (fun i hi => by rw [List.mem_range'_1] at hi; omega)
  refine ⟨?_, by rw [h2, List.length_set]⟩
  rw [h1, getD_set_zero c _ hc]

/-- After the monomial loop `tmp[0]` is `1` and `tmp` has kept its length. -/
theorem monomialLoop_tmp_zero (dim order : Nat) (x tmp : List ℚ) (ht : 1 ≤ tmp.length) :
    (monomialLoop dim order x tmp).tmp.getD 0 0 = 1 ∧
      (monomialLoop dim order x tmp).tmp.length = tmp.length := by
  obtain ⟨hlen, h0, _⟩ := monomialOrder_fold dim x (List.range' 1 order)
    { heads := List.replicate dim 0 ++ [MAXINT], tmp := tmp.set 0 1, t := 1, tail := 1,
      trace := [] }
  obtain ⟨_, hz⟩ := h0 le_rfl
  unfold monomialLoop
  refine ⟨?_, by rw [hlen, List.length_set]⟩
  rw [hz]
  exact getD_set_zero tmp 1 ht

/-- One reference point adds its weight to `coeffs_[0]`. -/
theorem farFieldRow_zero (dim : Nat) (data : Nat → Nat → ℚ) (center_ weights : List ℚ)
    (order : Int) (total : Nat) (bw : ℚ) (st : List ℚ × List ℚ) (row_num : Nat)
    (ht : 1 ≤ total) (hc : 1 ≤ st.1.length) (htmp : 1 ≤ st.2.length) :
    (farFieldRow dim data center_ weights order total bw st row_num).1.getD 0 0 =
        st.1.getD 0 0 + weights.getD row_num 0 ∧
      (farFieldRow dim data center_ weights order total bw st row_num).1.length =
        st.1.length ∧
      (farFieldRow dim data center_ weights order total bw st row_num).2.length =
        st.2.length := by
  unfold farFieldRow
  simp only
  obtain ⟨m1, m2⟩ := monomialLoop_tmp_zero dim order.toNat
    ((List.range dim).map fun i => (data i row_num - center_.getD i 0) / bw) st.2 htmp
  obtain ⟨a1, a2⟩ := tally_zero (weights.getD row_num 0)
    (monomialLoop dim order.toNat
      ((List.range dim).map fun i => (data i row_num - center_.getD i 0) / bw) st.2).tmp
    st.1 total ht hc
  refine ⟨?_, a2, m2⟩
  rw [a1, m1, mul_one]

/-- The loop over the reference points adds the weights of all of them to `coeffs_[0]`. -/
theorem farFieldRows_zero (dim : Nat) (data : Nat → Nat → ℚ) (center_ weights : List ℚ)
    (order : Int) (total : Nat) (bw : ℚ) (ht : 1 ≤ total) :
    ∀ (rows : List Nat) (st : List ℚ × List ℚ), 1 ≤ st.1.length → 1 ≤ st.2.length →
      (rows.foldl (farFieldRow dim data center_ weights order total bw) st).1.getD 0 0 =
          st.1.getD 0 0 + (rows.map fun r => weights.getD r 0).sum ∧
        (rows.foldl (farFieldRow dim data center_ weights order total bw) st).1.length =
          st.1.length := by
  intro rows
  induction rows with
  | nil => intro st _ _; simp
  | cons r rest ih =>
    intro st hc htmp
    rw [List.foldl_cons]
    obtain ⟨a1, a2, a3⟩ :=
      farFieldRow_zero dim data center_ weights order total bw st r ht hc htmp
    obtain ⟨b1, b2⟩ := ih _ (by rw [a2]; exact hc) (by rw [a3]; exact htmp)
    refine ⟨?_, by rw [b2, a2]⟩
    rw [b1, a1, List.map_cons, List.sum_cons]
    ring

/-- C16 (as stated, refuted): a freshly initialised expansion asked for order 0, with one
reference point of weight 1: the call returns at once (`order_ >= order`) and
`coeffs_[0]` stays 0, whereas the weights sum to 1. -/
theorem ComputeFarFieldCoeffs_order_zero :
    (ComputeFarFieldCoeffs
        (Init KernelType.GAUSSIAN ExpansionType.FARFIELD [0] 1 1) 1 (fun _ _ => 0)
        [1] [0] 0 1 [1] 1).coeffs_.getD 0 0 = 0 ∧
      ([0].map fun r => ([1] : List ℚ).getD r 0).sum = 1 ∧
      (ComputeFarFieldCoeffs
        (Init KernelType.GAUSSIAN ExpansionType.FARFIELD [0] 1 1) 1 (fun _ _ => 0)
        [1] [0] 0 1 [1] 1).coeffs_.getD 0 0 ≠
        ([0].map fun r => ([1] : List ℚ).getD r 0).sum := by
  have h1 : (ComputeFarFieldCoeffs
      (Init KernelType.GAUSSIAN ExpansionType.FARFIELD [0] 1 1) 1 (fun _ _ => 0)
      [1] [0] 0 1 [1] 1).coeffs_.getD 0 0 = 0 := by rfl
  have h2 : ([0].map fun r => ([1] : List ℚ).getD r 0).sum = 1 := by simp
  refine ⟨h1, h2, ?_⟩
  rw [h1, h2]
  norm_num

/-- C16 (amended): for a freshly initialised expansion with room for at least one
coefficient and every requested order at least 1, after `ComputeFarFieldCoeffs` the zeroth
coefficient is the sum of `weights[rows[r]]` over all `r`; for a requested order of 0 or
less the call changes nothing. -/
theorem ComputeFarFieldCoeffs_zeroth (kernel_type : KernelType)
    (expansion_type : ExpansionType) (center : List ℚ) (max_total_num_coeffs : Int)
    (bwsqd : ℚ) (dim : Nat) (data : Nat → Nat → ℚ) (weights : List ℚ) (rows : List Nat)
    (order : Int) (total_num_coeffs : Nat) (C_k : List ℚ) (bw_times_sqrt_two : ℚ)
    (hmax : 1 ≤ max_total_num_coeffs) (htotal : 1 ≤ total_num_coeffs) :
    (1 ≤ order →
      (ComputeFarFieldCoeffs
          (Init kernel_type expansion_type center max_total_num_coeffs bwsqd) dim data
          weights rows order total_num_coeffs C_k bw_times_sqrt_two).coeffs_[0]? =
        some (rows.map fun r => weights.getD r 0).sum) ∧
    (order ≤ 0 →
      ComputeFarFieldCoeffs
          (Init kernel_type expansion_type center max_total_num_coeffs bwsqd) dim data
          weights rows order total_num_coeffs C_k bw_times_sqrt_two =
        Init kernel_type expansion_type center max_total_num_coeffs bwsqd) := by
  constructor
  · intro ho
    have hng : ¬ (Init kernel_type expansion_type center max_total_num_coeffs bwsqd).order_ ≥
        order := by
      simp only [Init]
      omega
    unfold ComputeFarFieldCoeffs
    rw [if_neg hng]
    simp only
    have hlen0 : 1 ≤ (Init kernel_type expansion_type center max_total_num_coeffs
        bwsqd).coeffs_.length := by
      simp only [Init, List.length_replicate]
      omega
    obtain ⟨a1, a2⟩ := farFieldRows_zero dim data
      (Init kernel_type expansion_type center max_total_num_coeffs bwsqd).center_ weights
      order total_num_coeffs bw_times_sqrt_two htotal rows
      ((Init kernel_type expansion_type center max_total_num_coeffs bwsqd).coeffs_,
        List.replicate total_num_coeffs 0) hlen0 (by simpa using htotal)
    obtain ⟨b1, b2⟩ := fold_set_keeps_zero (fun c r => c.getD r 0 * C_k.getD r 0)
      (List.range' 1 (total_num_coeffs - 1))
      (rows.foldl (farFieldRow dim data
        (Init kernel_type expansion_type center max_total_num_coeffs bwsqd).center_ weights
        order total_num_coeffs bw_times_sqrt_two)
        ((Init kernel_type expansion_type center max_total_num_coeffs bwsqd).coeffs_,
          List.replicate total_num_coeffs 0)).1
      (fun i hi => by rw [List.mem_range'_1] at hi; omega)
    have hzero : (Init kernel_type expansion_type center max_total_num_coeffs
        bwsqd).coeffs_.getD 0 0 = 0 := by
      simp only [Init, List.getD_eq_getElem?_getD, List.getElem?_replicate]
      split <;> rfl
    have hb1 := b1.trans (a1.trans (by rw [show
      ((Init kernel_type expansion_type center max_total_num_coeffs bwsqd).coeffs_,
        List.replicate total_num_coeffs (0 : ℚ)).1 =
      (Init kernel_type expansion_type center max_total_num_coeffs bwsqd).coeffs_ from rfl,
      hzero, zero_add]))
    exact getElem?_zero_of_getD _ _ (by rw [b2, a2]; exact hlen0) hb1
  · intro ho
    have hg : (Init kernel_type expansion_type center max_total_num_coeffs bwsqd).order_ ≥
        order := by
      simp only [Init]
      omega
    unfold ComputeFarFieldCoeffs
    rw [if_pos hg]

/-- Instance of the amended C16: two reference points of weights 1 and 3 in dimension 2,
requested order 2. -/
theorem ComputeFarFieldCoeffs_zeroth_witness :
    (1 : Int) ≤ 10 ∧ 1 ≤ 6 ∧ (1 : Int) ≤ 2 ∧
      (ComputeFarFieldCoeffs
          (Init KernelType.GAUSSIAN ExpansionType.FARFIELD [0, 0] 10 1) 2
          (fun i r => ((i : ℚ) + (r : ℚ))) [1, 2, 3] [0, 2] 2 6 [1, 1, 1, 1 / 2, 1, 1 / 2]
          1).coeffs_[0]? =
        some ([0, 2].map fun r => ([1, 2, 3] : List ℚ).getD r 0).sum :=
  ⟨by decide, by decide, by decide,
   (ComputeFarFieldCoeffs_zeroth KernelType.GAUSSIAN ExpansionType.FARFIELD [0, 0] 10 1 2
      (fun i r => ((i : ℚ) + (r : ℚ))) [1, 2, 3] [0, 2] 2 6 [1, 1, 1, 1 / 2, 1, 1 / 2] 1
      (by decide) (by decide)).1 (by decide)⟩

end SeriesExpansion

namespace Lars

/-! ## Cholesky insertion -/

/-- The lower-triangular part of the transpose of an upper-triangular matrix is that
transpose. -/
theorem trimatl_transpose_of_upper {K : Type} [Zero K] {n : Nat}
    (R : Matrix (Fin n) (Fin n) K) (hup : ∀ i j : Fin n, j < i → R i j = 0) :
    trimatl R.transpose = R.transpose := by
  ext i j
  unfold trimatl
  by_cases h : j ≤ i
  · rw [if_pos h]
  · rw [if_neg h, Matrix.transpose_apply]
    exact (hup j i (by omega)).symm

section entries

variable {n d : Nat} (sqrt : ℝ → ℝ) (solve : Matrix (Fin n) (Fin n) ℝ → (Fin n → ℝ) → Fin n → ℝ)
  (fresh : Matrix (Fin (n + 1)) (Fin (n + 1)) ℝ)
  (R : Matrix (Fin n) (Fin n) ℝ) (new_x : Fin d → ℝ) (g : Fin n → ℝ)

/-- Leading block of the result. -/
theorem CholeskyInsert_block (hn : n ≠ 0) (i j : Fin n) :
    CholeskyInsert sqrt solve fresh R new_x g i.castSucc j.castSucc = R i j := by
  have hi := i.isLt
  have hj := j.isLt
  simp [CholeskyInsert, hn, Nat.ne_of_lt hi, Nat.ne_of_lt hj, hi, hj]

/-- Last column of the result, above the corner. -/
theorem CholeskyInsert_col (hn : n ≠ 0) (i : Fin n) :
    CholeskyInsert sqrt solve fresh R new_x g i.castSucc (Fin.last n) =
      solve (trimatl R.transpose) g i := by
  have hi := i.isLt
  simp [CholeskyInsert, hn, Nat.ne_of_lt hi, hi]

/-- Last row of the result, left of the corner. -/
theorem CholeskyInsert_row (hn : n ≠ 0) (j : Fin n) :
    CholeskyInsert sqrt solve fresh R new_x g (Fin.last n) j.castSucc = 0 := by
  have hj := j.isLt
  simp [CholeskyInsert, hn, Nat.ne_of_lt hj, hj]

/-- Corner of the result. -/
theorem CholeskyInsert_corner (hn : n ≠ 0) :
    CholeskyInsert sqrt solve fresh R new_x g (Fin.last n) (Fin.last n) =
      sqrt (Matrix.dotProduct new_x new_x -
        Matrix.dotProduct (solve (trimatl R.transpose) g) (solve (trimatl R.transpose) g)) := by
  simp [CholeskyInsert, hn]

end entries

/-- For an invertible upper-triangular `R`, solving with `trimatl(trans(R))` yields
`R⁻ᵀ g`, which `Rᵀ` maps back to `g`. -/
theorem solve_spec {n : Nat} (R : Matrix (Fin n) (Fin n) ℝ) (g : Fin n → ℝ)
    (hup : ∀ i j : Fin n, j < i → R i j = 0) (hinv : IsUnit R.det) :
    (trimatl R.transpose)⁻¹.mulVec g = (R.transpose)⁻¹.mulVec g ∧
      R.transpose.mulVec ((R.transpose)⁻¹.mulVec g) = g := by
  refine ⟨by rw [trimatl_transpose_of_upper R hup], ?_⟩
  rw [Matrix.mulVec_mulVec, Matrix.mul_nonsing_inv _ (by rwa [Matrix.det_transpose]),
    Matrix.one_mulVec]

/-- C17: over the reals, for an invertible upper-triangular `n × n` matrix `R` (`n ≥ 1`)
with `Rᵀ R = G`, a vector `g` of length `n` and `new_x` with
`new_x · new_x - |R⁻ᵀ g|² ≥ 0`, the result `R'` of `CholeskyInsert(R, new_x, g)` is an
`(n+1) × (n+1)` matrix that is upper triangular, has `R` as its leading block, and
`R'ᵀ R'` is `G` bordered by `g` with `new_x · new_x` in the corner; for the empty `R` the
result is the `1 × 1` matrix holding `sqrt(new_x · new_x)`, the norm of `new_x`. -/
theorem CholeskyInsert_keeps_factor {n d : Nat} (R G : Matrix (Fin n) (Fin n) ℝ)
    (g : Fin n → ℝ) (new_x : Fin d → ℝ) (fresh : Matrix (Fin (n + 1)) (Fin (n + 1)) ℝ)
    (hn : 1 ≤ n) (hup : ∀ i j : Fin n, j < i → R i j = 0) (hinv : IsUnit R.det)
    (hG : R.transpose * R = G)
    (hpos : 0 ≤ Matrix.dotProduct new_x new_x -
      Matrix.dotProduct ((R.transpose)⁻¹.mulVec g) ((R.transpose)⁻¹.mulVec g)) :
    (∀ i j : Fin (n + 1), j < i →
      CholeskyInsert Real.sqrt (fun A b => A⁻¹.mulVec b) fresh R new_x g i j = 0) ∧
    (∀ i j : Fin n,
      CholeskyInsert Real.sqrt (fun A b => A⁻¹.mulVec b) fresh R new_x g
        i.castSucc j.castSucc = R i j) ∧
    (∀ i j : Fin n,
      ((CholeskyInsert Real.sqrt (fun A b => A⁻¹.mulVec b) fresh R new_x g).transpose *
        CholeskyInsert Real.sqrt (fun A b => A⁻¹.mulVec b) fresh R new_x g)
        i.castSucc j.castSucc = G i j) ∧
    (∀ i : Fin n,
      ((CholeskyInsert Real.sqrt (fun A b => A⁻¹.mulVec b) fresh R new_x g).transpose *
        CholeskyInsert Real.sqrt (fun A b => A⁻¹.mulVec b) fresh R new_x g)
        i.castSucc (Fin.last n) = g i ∧
      ((CholeskyInsert Real.sqrt (fun A b => A⁻¹.mulVec b) fresh R new_x g).transpose *
        CholeskyInsert Real.sqrt (fun A b => A⁻¹.mulVec b) fresh R new_x g)
        (Fin.last n) i.castSucc = g i) ∧
    ((CholeskyInsert Real.sqrt (fun A b => A⁻¹.mulVec b) fresh R new_x g).transpose *
        CholeskyInsert Real.sqrt (fun A b => A⁻¹.mulVec b) fresh R new_x g)
        (Fin.last n) (Fin.last n) = Matrix.dotProduct new_x new_x ∧
    (∀ (R0 : Matrix (Fin 0) (Fin 0) ℝ) (g0 : Fin 0 → ℝ) (fresh0 : Matrix (Fin 1) (Fin 1) ℝ),
      CholeskyInsert Real.sqrt (fun A b => A⁻¹.mulVec b) fresh0 R0 new_x g0 =
        fun _ _ => Real.sqrt (Matrix.dotProduct new_x new_x)) := by
  have hn0 : n ≠ 0 := by omega
  obtain ⟨hs1, hs2⟩ := solve_spec R g hup hinv
  have hblock := CholeskyInsert_block Real.sqrt (fun A b => A⁻¹.mulVec b) fresh R new_x g hn0
  have hcol : ∀ i : Fin n,
      CholeskyInsert Real.sqrt (fun A b => A⁻¹.mulVec b) fresh R new_x g i.castSucc
        (Fin.last n) = (R.transpose)⁻¹.mulVec g i := by
    intro i
    rw [CholeskyInsert_col Real.sqrt (fun A b => A⁻¹.mulVec b) fresh R new_x g hn0 i]
    simp only [hs1]
  have hrow := CholeskyInsert_row Real.sqrt (fun A b => A⁻¹.mulVec b) fresh R new_x g hn0
  have hcorner : CholeskyInsert Real.sqrt (fun A b => A⁻¹.mulVec b) fresh R new_x g
      (Fin.last n) (Fin.last n) = Real.sqrt (Matrix.dotProduct new_x new_x -
        Matrix.dotProduct ((R.transpose)⁻¹.mulVec g) ((R.transpose)⁻¹.mulVec g)) := by
    rw [CholeskyInsert_corner Real.sqrt (fun A b => A⁻¹.mulVec b) fresh R new_x g hn0]
    simp only [hs1]
  have hRk : ∀ i : Fin n, ∑ k : Fin n, R k i * (R.transpose)⁻¹.mulVec g k = g i := by
    intro i
    have := congrFun hs2 i
    simpa [Matrix.mulVec, Matrix.dotProduct, Matrix.transpose_apply] using this
  refine ⟨?_, hblock, ?_, ?_, ?_, fun R0 g0 fresh0 => by simp [CholeskyInsert]⟩
  · intro i j hji
    rcases Fin.eq_castSucc_or_eq_last j with ⟨j', rfl⟩ | rfl
    · rcases Fin.eq_castSucc_or_eq_last i with ⟨i', rfl⟩ | rfl
      · rw [hblock]
        exact hup i' j' (by simpa using hji)
      · exact hrow j'
    · exact absurd hji (by
        intro h
        have := Fin.le_last i
        omega)
  · intro i j
    rw [Matrix.mul_apply, Fin.sum_univ_castSucc]
    simp only [Matrix.transpose_apply, hblock, hrow, mul_zero, add_zero]
    rw [← hG, Matrix.mul_apply]
    simp only [Matrix.transpose_apply]
  · intro i
    constructor
    · rw [Matrix.mul_apply, Fin.sum_univ_castSucc]
      simp only [Matrix.transpose_apply, hblock, hrow, hcol, zero_mul, add_zero]
      exact hRk i
    · rw [Matrix.mul_apply, Fin.sum_univ_castSucc]
      simp only [Matrix.transpose_apply, hblock, hrow, hcol, mul_zero, add_zero]
      rw [← hRk i]
      exact Finset.sum_congr rfl (fun k _ => mul_comm _ _)
  · rw [Matrix.mul_apply, Fin.sum_univ_castSucc]
    simp only [Matrix.transpose_apply, hcol, hcorner]
    rw [Real.mul_self_sqrt hpos]
    simp only [Matrix.dotProduct]
    ring

/-- Instance of C17: `R` the `1 × 1` identity, `g = 0`, `new_x = (3, 4)`. -/
theorem CholeskyInsert_keeps_factor_witness :
    1 ≤ 1 ∧ IsUnit (1 : Matrix (Fin 1) (Fin 1) ℝ).det ∧
    (1 : Matrix (Fin 1) (Fin 1) ℝ).transpose * 1 = 1 ∧
    ((CholeskyInsert Real.sqrt (fun A b => A⁻¹.mulVec b) (0 : Matrix (Fin 2) (Fin 2) ℝ)
          (1 : Matrix (Fin 1) (Fin 1) ℝ) (![3, 4] : Fin 2 → ℝ) (fun _ => 0)).transpose *
        CholeskyInsert Real.sqrt (fun A b => A⁻¹.mulVec b) (0 : Matrix (Fin 2) (Fin 2) ℝ)
          (1 : Matrix (Fin 1) (Fin 1) ℝ) (![3, 4] : Fin 2 → ℝ) (fun _ => 0))
        (Fin.last 1) (Fin.last 1) = Matrix.dotProduct (![3, 4] : Fin 2 → ℝ) ![3, 4] :=
  ⟨le_rfl, by simp, by simp,
  (CholeskyInsert_keeps_factor (1 : Matrix (Fin 1) (Fin 1) ℝ) 1 (fun _ => 0) ![3, 4] 0
    le_rfl
    (fun i j h => by
      have hi := Fin.eq_zero i
      have hj := Fin.eq_zero j
      subst hi
      subst hj
      exact absurd h (lt_irrefl _))
    (by simp) (by simp)
    (by
      have h0 : (fun _ => 0 : Fin 1 → ℝ) = 0 := rfl
      rw [h0, Matrix.mulVec_zero]
      simp [Matrix.dotProduct, Fin.sum_univ_two]
      norm_num)).2.2.2.2.1⟩

end Lars
